import Mathlib

/-!
Verification development for the cnstlltn resource-orchestration engine.

The definitions below are a shallow embedding of the Python sources:
  * `_cli.py`   : the selection algorithm (`with_all_dependencies`,
                  `with_all_dependents`, `inverse_setdict`,
                  `toposort_dependencies`, `is_included`, `is_excluded`, the
                  `resources_to_up`/`resources_to_down` pipeline), the
                  per-resource convergence functions `up_resource` /
                  `down_resource` and their helper `check_products`.
  * `model.py`  : the `Resource.file` bag registration logic.
  * `statestorage*.py` : the method surfaces of the state-store session and
                  of the two storage backends.
  * the `toposort` library used by `_cli.py` (level-by-level Kahn iteration
    with per-level lexicographic sorting, self-dependencies discarded).

Python dicts are embedded as association lists read through `dget` (the
`dict.get(k, set())` view); Python sets of names as `List String` carrying the
set's elements, or as `Finset String` where only membership matters.
-/

namespace Cnstlltn

/-! ## Lexicographic string comparison

Python sorts resource names with `sorted`, i.e. lexicographically by code
point.  The orders shipped with `String` do not reduce inside the kernel, so
the same order is defined here structurally over the character lists. -/

/-- Lexicographic code-point comparison of character lists. -/
def charListLe : List Char → List Char → Bool
  | [], _ => true
  | _ :: _, [] => false
  | a :: as, b :: bs =>
    if a.val.toNat < b.val.toNat then true
    else if b.val.toNat < a.val.toNat then false
    else charListLe as bs

/-- Lexicographic code-point comparison of strings, as used by `sorted`. -/
def strLe (a b : String) : Bool := charListLe a.data b.data

/-- Embedding of `sorted` on a list of names. -/
def sortStr (l : List String) : List String :=
  l.insertionSort (fun a b => strLe a b = true)

theorem sortStr_perm (l : List String) : List.Perm (sortStr l) l :=
  List.perm_insertionSort _ l

theorem mem_sortStr {l : List String} {x : String} : x ∈ sortStr l ↔ x ∈ l :=
  (sortStr_perm l).mem_iff

theorem sortStr_nodup {l : List String} (h : l.Nodup) : (sortStr l).Nodup :=
  ((sortStr_perm l).nodup_iff).mpr h

/-! ## Dictionaries of name-sets as association lists -/

/-- Lookup with the `dict.get(key, set())` default used throughout `_cli.py`. -/
def dget (d : List (String × List String)) (k : String) : List String :=
  match d.lookup k with
  | some v => v
  | none => []

/-- The key set of a dictionary. -/
def dkeys (d : List (String × List String)) : Finset String :=
  (d.map Prod.fst).toFinset

/-- The union of all value sets of a dictionary. -/
def dvals (d : List (String × List String)) : Finset String :=
  (d.flatMap Prod.snd).toFinset

theorem lookup_eq_some_mem {d : List (String × List String)} {k : String}
    {v : List String} (h : d.lookup k = some v) : (k, v) ∈ d := by
  induction d with
  | nil => simp [List.lookup] at h
  | cons p rest ih =>
    obtain ⟨p1, p2⟩ := p
    rw [List.lookup] at h
    by_cases hk : k = p1
    · subst hk
      simp at h
      subst h
      exact List.mem_cons_self _ _
    · have hb : (k == p1) = false := by simpa using hk
      rw [hb] at h
      exact List.mem_cons_of_mem _ (ih h)

theorem mem_lookup_eq_some {d : List (String × List String)} {k : String}
    {v : List String} (hnd : (d.map Prod.fst).Nodup) (h : (k, v) ∈ d) :
    d.lookup k = some v := by
  induction d with
  | nil => simp at h
  | cons p rest ih =>
    simp only [List.map_cons, List.nodup_cons] at hnd
    rcases List.mem_cons.mp h with h1 | h2
    · subst h1
      simp [List.lookup]
    · have hne : k ≠ p.1 := by
        intro he
        exact hnd.1 (he ▸ (List.mem_map.mpr ⟨(k, v), h2, rfl⟩))
      rw [List.lookup]
      have : (k == p.1) = false := by simpa using hne
      rw [this]
      exact ih hnd.2 h2

theorem dget_eq_of_mem {d : List (String × List String)} {k : String}
    {v : List String} (hnd : (d.map Prod.fst).Nodup) (h : (k, v) ∈ d) :
    dget d k = v := by
  rw [dget, mem_lookup_eq_some hnd h]

theorem snd_subset_dvals {d : List (String × List String)}
    {p : String × List String} (h : p ∈ d) : ∀ x ∈ p.2, x ∈ dvals d := by
  intro x hx
  simp only [dvals, List.mem_toFinset, List.mem_flatMap]
  exact ⟨p, h, hx⟩

theorem dget_subset_dvals (d : List (String × List String)) (k : String) :
    ∀ x ∈ dget d k, x ∈ dvals d := by
  rw [dget]
  cases hl : d.lookup k with
  | none => simp
  | some v => exact snd_subset_dvals (lookup_eq_some_mem hl)

theorem mem_dkeys_of_lookup {d : List (String × List String)} {k : String}
    {v : List String} (h : d.lookup k = some v) : k ∈ dkeys d := by
  have := lookup_eq_some_mem h
  simp only [dkeys, List.mem_toFinset, List.mem_map]
  exact ⟨(k, v), this, rfl⟩

theorem mem_dkeys_of_dget_ne {d : List (String × List String)} {k : String}
    (h : dget d k ≠ []) : k ∈ dkeys d := by
  rw [dget] at h
  cases hl : d.lookup k with
  | none => rw [hl] at h; simp at h
  | some v => exact mem_dkeys_of_lookup hl

theorem dget_eq_nil_of_not_mem {d : List (String × List String)} {k : String}
    (h : k ∉ dkeys d) : dget d k = [] := by
  by_contra hne
  exact h (mem_dkeys_of_dget_ne hne)

/-! ## Transitive closure over a dependency dictionary

`with_all_dependencies` is the fixed-point loop of `_cli.py` lines 729-742:
starting from `of`, repeatedly add `deps.get(i, set())` for every member `i`
until nothing changes.  The Python loop is unbounded; here it runs on fuel
that provably exceeds the number of possible additions, so the fixed point is
always reached (see `wadStep_wadIter_fixed`). -/

/-- One pass of the loop body: `new = result ∪ ⋃ i ∈ result, deps.get(i, set())`. -/
def wadStep (deps : List (String × List String)) (s : Finset String) : Finset String :=
  s ∪ s.biUnion (fun i => (dget deps i).toFinset)

/-- The `while True` loop: iterate `wadStep` until it no longer changes the set. -/
def wadIter (deps : List (String × List String)) : Nat → Finset String → Finset String
  | 0, s => s
  | n + 1, s => if wadStep deps s = s then s else wadIter deps n (wadStep deps s)

/-- Embedding of `with_all_dependencies(of, deps)` from `_cli.py`. -/
def with_all_dependencies (of : Finset String)
    (deps : List (String × List String)) : Finset String :=
  wadIter deps ((of ∪ dvals deps).card + 1) of

/-- Reflexive-transitive reachability along `deps.get` edges: `Reaches deps a b`
means `b` is `a` itself or a transitive dependency of `a`. -/
inductive Reaches (deps : List (String × List String)) : String → String → Prop
  | refl (a : String) : Reaches deps a a
  | tail {a b c : String} : Reaches deps a b → c ∈ dget deps b → Reaches deps a c

theorem Reaches.trans {deps : List (String × List String)} {a b c : String}
    (h1 : Reaches deps a b) (h2 : Reaches deps b c) : Reaches deps a c := by
  induction h2 with
  | refl => exact h1
  | tail _ hm ih => exact Reaches.tail ih hm

theorem Reaches.single {deps : List (String × List String)} {a b : String}
    (h : b ∈ dget deps a) : Reaches deps a b :=
  Reaches.tail (Reaches.refl a) h

theorem Reaches.head {deps : List (String × List String)} {a b c : String}
    (h1 : b ∈ dget deps a) (h2 : Reaches deps b c) : Reaches deps a c :=
  (Reaches.single h1).trans h2

/-- The source of a non-trivial reachability chain is a dictionary key. -/
theorem Reaches.src_key {deps : List (String × List String)} {a b : String}
    (h : Reaches deps a b) : a = b ∨ a ∈ dkeys deps := by
  induction h with
  | refl => exact Or.inl rfl
  | tail hr hm ih =>
    rcases ih with he | hk
    · subst he
      right
      apply mem_dkeys_of_dget_ne
      intro hempty
      rw [hempty] at hm
      simp at hm
    · exact Or.inr hk

theorem subset_wadStep (deps : List (String × List String)) (s : Finset String) :
    s ⊆ wadStep deps s := by
  intro x hx
  exact Finset.mem_union.mpr (Or.inl hx)

theorem subset_wadIter (deps : List (String × List String)) (n : Nat)
    (s : Finset String) : s ⊆ wadIter deps n s := by
  induction n generalizing s with
  | zero => exact fun x h => h
  | succ n ih =>
    rw [wadIter]
    split
    · exact fun x h => h
    · exact fun x h => ih _ (subset_wadStep deps s h)

theorem wadStep_subset {deps : List (String × List String)} {s B : Finset String}
    (hs : s ⊆ B) (hv : dvals deps ⊆ B) : wadStep deps s ⊆ B := by
  intro x hx
  rcases Finset.mem_union.mp hx with h | h
  · exact hs h
  · rcases Finset.mem_biUnion.mp h with ⟨i, _, hxi⟩
    exact hv (dget_subset_dvals deps i x (by simpa using hxi))

theorem wadIter_subset {deps : List (String × List String)} {s B : Finset String}
    (n : Nat) (hs : s ⊆ B) (hv : dvals deps ⊆ B) : wadIter deps n s ⊆ B := by
  induction n generalizing s with
  | zero => exact hs
  | succ n ih =>
    rw [wadIter]
    split
    · exact hs
    · exact ih (wadStep_subset hs hv)

/-- With enough fuel the loop reaches a genuine fixed point, exactly as the
unbounded Python loop does. -/
theorem wadStep_wadIter_fixed (deps : List (String × List String))
    (B : Finset String) (n : Nat) :
    ∀ s : Finset String, s ⊆ B → dvals deps ⊆ B → B.card < n + s.card →
    wadStep deps (wadIter deps n s) = wadIter deps n s := by
  induction n with
  | zero =>
    intro s hs _ hn
    exact absurd (Finset.card_le_card hs) (by omega)
  | succ n ih =>
    intro s hs hv hn
    rw [wadIter]
    split
    · next h => rw [h]
    · next h =>
      apply ih _ (wadStep_subset hs hv) hv
      have hne : s ≠ wadStep deps s := fun he => h he.symm
      have hss : s ⊂ wadStep deps s :=
        lt_of_le_of_ne (subset_wadStep deps s) hne
      have := Finset.card_lt_card hss
      omega

theorem wad_fixed (of : Finset String) (deps : List (String × List String)) :
    wadStep deps (with_all_dependencies of deps) = with_all_dependencies of deps := by
  rw [with_all_dependencies]
  exact wadStep_wadIter_fixed deps (of ∪ dvals deps) _ of
    Finset.subset_union_left Finset.subset_union_right (by omega)

/-- Membership characterisation of `with_all_dependencies`: exactly the targets
reachable from `of` along dependency edges. -/
theorem mem_with_all_dependencies {of : Finset String}
    {deps : List (String × List String)} {b : String} :
    b ∈ with_all_dependencies of deps ↔ ∃ a ∈ of, Reaches deps a b := by
  constructor
  · have key : ∀ (n : Nat) (s : Finset String),
        (∀ x ∈ s, ∃ a ∈ of, Reaches deps a x) →
        ∀ x ∈ wadIter deps n s, ∃ a ∈ of, Reaches deps a x := by
      intro n
      induction n with
      | zero => intro s hs; exact hs
      | succ n ih =>
        intro s hs x hx
        rw [wadIter] at hx
        split at hx
        · exact hs x hx
        · refine ih _ ?_ x hx
          intro y hy
          rcases Finset.mem_union.mp hy with h | h
          · exact hs y h
          · rcases Finset.mem_biUnion.mp h with ⟨i, hi, hyi⟩
            rcases hs i hi with ⟨a, ha, hr⟩
            exact ⟨a, ha, Reaches.tail hr (by simpa using hyi)⟩
    intro hb
    exact key _ of (fun x hx => ⟨x, hx, Reaches.refl x⟩) b hb
  · rintro ⟨a, ha, hr⟩
    induction hr with
    | refl => exact subset_wadIter deps _ of ha
    | tail _ hm ih =>
      rw [← wad_fixed of deps]
      exact Finset.mem_union.mpr (Or.inr (Finset.mem_biUnion.mpr
        ⟨_, ih, by simpa using hm⟩))

theorem wad_closed {of : Finset String} {deps : List (String × List String)}
    {b c : String} (hb : b ∈ with_all_dependencies of deps) (hc : c ∈ dget deps b) :
    c ∈ with_all_dependencies of deps := by
  rcases mem_with_all_dependencies.mp hb with ⟨a, ha, hr⟩
  exact mem_with_all_dependencies.mpr ⟨a, ha, Reaches.tail hr hc⟩

theorem subset_wad (of : Finset String) (deps : List (String × List String)) :
    of ⊆ with_all_dependencies of deps :=
  subset_wadIter deps _ of

theorem wad_empty (deps : List (String × List String)) :
    with_all_dependencies ∅ deps = ∅ := by
  ext x
  simp [mem_with_all_dependencies]

theorem wad_subset_union (of : Finset String) (deps : List (String × List String)) :
    with_all_dependencies of deps ⊆ of ∪ dvals deps :=
  wadIter_subset _ Finset.subset_union_left Finset.subset_union_right

/-! ## Inverting a dictionary of sets

`inverse_setdict` from `_cli.py` lines 719-726 builds the dictionary mapping
every element `i` occurring in some value set to the set of keys whose value
set contains `i`.  The Python original accumulates with `setdefault`; the
embedding constructs the same mapping (same keys, same value sets) directly. -/

/-- Embedding of `inverse_setdict(setdict)` from `_cli.py`. -/
def inverse_setdict (d : List (String × List String)) : List (String × List String) :=
  let pairs := d.flatMap (fun p => p.2.map (fun i => (i, p.1)))
  (pairs.map Prod.fst).dedup.map
    (fun i => (i, (pairs.filter (fun q => q.1 == i)).map Prod.snd))

theorem lookup_map_keyfn (keys : List String) (f : String → List String)
    (i : String) :
    (keys.map (fun k => (k, f k))).lookup i =
      if i ∈ keys then some (f i) else none := by
  induction keys with
  | nil => simp [List.lookup]
  | cons k ks ih =>
    by_cases hik : i = k
    · subst hik
      simp [List.lookup]
    · have hb : (i == k) = false := by simpa using hik
      simp only [List.map_cons, List.lookup, hb, ih, List.mem_cons]
      by_cases hm : i ∈ ks
      · simp [hm, hik]
      · simp [hm, hik]

/-- Membership in a value set of the inverted dictionary. -/
theorem mem_dget_inverse {d : List (String × List String)} {i k : String} :
    k ∈ dget (inverse_setdict d) i ↔ ∃ p ∈ d, p.1 = k ∧ i ∈ p.2 := by
  classical
  rw [inverse_setdict, dget]
  set pairs := d.flatMap (fun p => p.2.map (fun j => (j, p.1))) with hpairs
  have hmempairs : ∀ a b : String, (a, b) ∈ pairs ↔ ∃ p ∈ d, p.1 = b ∧ a ∈ p.2 := by
    intro a b
    rw [hpairs]
    simp only [List.mem_flatMap, List.mem_map]
    constructor
    · rintro ⟨p, hp, j, hj, he⟩
      have h1 : j = a := congrArg Prod.fst he
      have h2 : p.1 = b := congrArg Prod.snd he
      subst h1
      exact ⟨p, hp, h2, hj⟩
    · rintro ⟨p, hp, rfl, ha⟩
      exact ⟨p, hp, a, ha, rfl⟩
  rw [lookup_map_keyfn]
  by_cases hk : i ∈ (pairs.map Prod.fst).dedup
  · simp only [hk, if_pos]
    simp only [List.mem_map, List.mem_filter]
    constructor
    · rintro ⟨q, ⟨hq, hq1⟩, rfl⟩
      have : q.1 = i := by simpa using hq1
      have hqm : (i, q.2) ∈ pairs := by
        have : q = (i, q.2) := by
          cases q; simp_all
        exact this ▸ hq
      exact (hmempairs i q.2).mp hqm
    · intro hex
      have hqm : (i, k) ∈ pairs := (hmempairs i k).mpr hex
      exact ⟨(i, k), ⟨hqm, by simp⟩, rfl⟩
  · simp only [hk, if_neg, not_false_iff]
    constructor
    · intro h; simp at h
    · rintro hex
      exfalso
      apply hk
      rw [List.mem_dedup, List.mem_map]
      exact ⟨(i, k), (hmempairs i k).mpr hex, rfl⟩

theorem mem_dkeys_exists {d : List (String × List String)} {k : String}
    (h : k ∈ dkeys d) : ∃ v, (k, v) ∈ d := by
  simp only [dkeys, List.mem_toFinset, List.mem_map] at h
  rcases h with ⟨p, hp, rfl⟩
  exact ⟨p.2, hp⟩

/-- With unique keys, the inverted dictionary maps `i` to exactly the keys
whose value set contains `i`. -/
theorem mem_dget_inverse_nodup {d : List (String × List String)}
    (hnd : (d.map Prod.fst).Nodup) {i k : String} :
    k ∈ dget (inverse_setdict d) i ↔ k ∈ dkeys d ∧ i ∈ dget d k := by
  rw [mem_dget_inverse]
  constructor
  · rintro ⟨p, hp, rfl, hi⟩
    have hp' : (p.1, p.2) ∈ d := by simpa using hp
    refine ⟨?_, ?_⟩
    · simp only [dkeys, List.mem_toFinset, List.mem_map]
      exact ⟨p, hp, rfl⟩
    · rw [dget_eq_of_mem hnd hp']
      exact hi
  · rintro ⟨hk, hi⟩
    rcases mem_dkeys_exists hk with ⟨v, hv⟩
    refine ⟨(k, v), hv, rfl, ?_⟩
    rwa [dget_eq_of_mem hnd hv] at hi

theorem dvals_inverse_subset_dkeys (d : List (String × List String)) :
    dvals (inverse_setdict d) ⊆ dkeys d := by
  intro x hx
  simp only [dvals, List.mem_toFinset, List.mem_flatMap] at hx
  rcases hx with ⟨p, hp, hx⟩
  rw [inverse_setdict] at hp
  simp only [List.mem_map] at hp
  rcases hp with ⟨i, _, rfl⟩
  simp only [List.mem_map, List.mem_filter] at hx
  rcases hx with ⟨q, ⟨hq, _⟩, rfl⟩
  simp only [List.mem_flatMap, List.mem_map] at hq
  rcases hq with ⟨p, hp, j, _, he⟩
  have hq2 : q.2 = p.1 := by
    have := congrArg Prod.snd he
    simpa using this.symm
  rw [hq2]
  simp only [dkeys, List.mem_toFinset, List.mem_map]
  exact ⟨p, hp, rfl⟩

/-- Embedding of `with_all_dependents(of, deps)` from `_cli.py`. -/
def with_all_dependents (of : Finset String)
    (deps : List (String × List String)) : Finset String :=
  with_all_dependencies of (inverse_setdict deps)

/-- A chain in the inverted graph is a reversed chain in the original graph. -/
theorem reaches_of_inv {d : List (String × List String)}
    (hnd : (d.map Prod.fst).Nodup) {i k : String}
    (h : Reaches (inverse_setdict d) i k) : Reaches d k i := by
  induction h with
  | refl => exact Reaches.refl _
  | tail _ hm ih =>
    rcases (mem_dget_inverse_nodup hnd).mp hm with ⟨_, hstep⟩
    exact Reaches.head hstep ih

/-- A reversed chain in the original graph whose source is a key (or trivial)
is a chain in the inverted graph. -/
theorem inv_of_reaches {d : List (String × List String)}
    (hnd : (d.map Prod.fst).Nodup) {k e : String}
    (h : Reaches d k e) (hk : k = e ∨ k ∈ dkeys d) :
    Reaches (inverse_setdict d) e k := by
  induction h with
  | refl => exact Reaches.refl _
  | tail h1 hm ih =>
    rename_i b c
    have hbkey : b ∈ dkeys d := by
      apply mem_dkeys_of_dget_ne
      intro hempty
      rw [hempty] at hm
      simp at hm
    have hstep : b ∈ dget (inverse_setdict d) c :=
      (mem_dget_inverse_nodup hnd).mpr ⟨hbkey, hm⟩
    exact (Reaches.single hstep).trans (ih (Reaches.src_key h1))

/-! ## The `toposort` library

`toposort.toposort(data)` first discards self-dependencies and adds an empty
entry for every item that occurs only inside a value set, then repeatedly
emits the set of items with no remaining dependencies ("levels") until the
data is exhausted, raising `CircularDependencyError` if items remain.
`toposort_flatten(data, sort=True)` concatenates the levels, each sorted. -/

/-- Preprocessing of `toposort`: drop self-dependencies, then give every item
appearing only in a value set an entry with an empty dependency set. -/
def tsPrep (d : List (String × List String)) : List (String × List String) :=
  (d.map (fun p => (p.1, p.2.filter (fun i => decide (i ≠ p.1))))) ++
    (((d.flatMap Prod.snd).dedup).filter
      (fun i => decide (i ∉ d.map Prod.fst))).map (fun i => (i, []))

/-- The level loop of `toposort`, on fuel: emit the keys whose dependency set
is exhausted, remove them from the data, and recurse; report the remaining
data on a circular dependency. -/
def tsLevels : Nat → List (String × List String) →
    Except (List (String × List String)) (List (List String))
  | 0, data =>
    if ((data.filter (fun p => p.2.isEmpty)).map Prod.fst).isEmpty then
      (if data.isEmpty then .ok [] else .error data)
    else .error data
  | fuel + 1, data =>
    let ordered := (data.filter (fun p => p.2.isEmpty)).map Prod.fst
    if ordered.isEmpty then
      (if data.isEmpty then .ok [] else .error data)
    else
      match tsLevels fuel ((data.filter (fun p => decide (p.1 ∉ ordered))).map
          (fun p => (p.1, p.2.filter (fun i => decide (i ∉ ordered))))) with
      | .ok ls => .ok (ordered :: ls)
      | .error e => .error e

/-- Embedding of `toposort.toposort_flatten(data, sort=True)`. -/
def toposort_flatten (d : List (String × List String)) :
    Except (List (String × List String)) (List String) :=
  match tsLevels (tsPrep d).length (tsPrep d) with
  | .ok ls => .ok (ls.flatMap sortStr)
  | .error e => .error e

/-- Embedding of `toposort_dependencies(of, deps)` from `_cli.py`. -/
def toposort_dependencies (of : Finset String)
    (deps : List (String × List String)) :
    Except (List (String × List String)) (List String) :=
  match toposort_flatten deps with
  | .ok l => .ok (l.filter (fun i => decide (i ∈ of)))
  | .error e => .error e

/-- Well-formed level decompositions: every level only contains fresh items
whose dependencies were all emitted in earlier levels. -/
inductive GoodLevels (d : List (String × List String)) :
    Finset String → List (List String) → Prop
  | nil (done : Finset String) : GoodLevels d done []
  | cons (done : Finset String) (L : List String) (ls : List (List String)) :
      (∀ k ∈ L, ∀ j ∈ dget d k, j ∈ done) →
      (∀ k ∈ L, k ∉ done) →
      L.Nodup →
      GoodLevels d (done ∪ L.toFinset) ls →
      GoodLevels d done (L :: ls)

theorem goodLevels_not_mem_done {d : List (String × List String)}
    {done : Finset String} {ls : List (List String)} (h : GoodLevels d done ls) :
    ∀ L ∈ ls, ∀ x ∈ L, x ∉ done := by
  induction h with
  | nil => simp
  | cons done L ls h1 h2 hnd hrec ih =>
    intro L' hL' x hx
    rcases List.mem_cons.mp hL' with rfl | hdeep
    · exact h2 x hx
    · intro hxdone
      exact ih L' hdeep x hx (Finset.mem_union.mpr (Or.inl hxdone))

theorem goodLevels_pairwise {d : List (String × List String)}
    {done : Finset String} {ls : List (List String)} (h : GoodLevels d done ls) :
    (ls.flatMap sortStr).Pairwise (fun a b => b ∉ dget d a) := by
  induction h with
  | nil => simp
  | cons done L ls h1 h2 hnd hrec ih =>
    rw [List.flatMap_cons]
    rw [List.pairwise_append]
    refine ⟨?_, ih, ?_⟩
    · apply List.pairwise_of_forall_mem_list
      intro a ha b hb
      rw [mem_sortStr] at ha hb
      intro hmem
      exact h2 b hb (h1 a ha b hmem)
    · intro a ha b hb
      rw [mem_sortStr] at ha
      rcases List.mem_flatMap.mp hb with ⟨L', hL', hbL'⟩
      rw [mem_sortStr] at hbL'
      intro hmem
      exact goodLevels_not_mem_done hrec L' hL' b hbL'
        (Finset.mem_union.mpr (Or.inl (h1 a ha b hmem)))

theorem goodLevels_nodup {d : List (String × List String)}
    {done : Finset String} {ls : List (List String)} (h : GoodLevels d done ls) :
    (ls.flatMap sortStr).Nodup := by
  induction h with
  | nil => simp
  | cons done L ls h1 h2 hnd hrec ih =>
    rw [List.flatMap_cons]
    apply List.Nodup.append (sortStr_nodup hnd) ih
    intro a haL haDeep
    rw [mem_sortStr] at haL
    rcases List.mem_flatMap.mp haDeep with ⟨L', hL', haL'⟩
    rw [mem_sortStr] at haL'
    exact goodLevels_not_mem_done hrec L' hL' a haL'
      (Finset.mem_union.mpr (Or.inr (List.mem_toFinset.mpr haL)))

/-- Main invariant of the level loop: a successful run from data representing
the part of `d` not yet emitted produces well-formed levels that exhaust the
remaining keys. -/
theorem tsLevels_good (d : List (String × List String)) :
    ∀ (fuel : Nat) (data : List (String × List String)) (done : Finset String)
      (ls : List (List String)),
    (data.map Prod.fst).Nodup →
    dkeys data = dkeys d \ done →
    (∀ p ∈ data, ∀ j, j ∈ p.2 ↔ (j ∈ dget d p.1 ∧ j ∉ done)) →
    tsLevels fuel data = .ok ls →
    GoodLevels d done ls ∧ ∀ x, (∃ L ∈ ls, x ∈ L) ↔ x ∈ dkeys d \ done := by
  intro fuel
  induction fuel with
  | zero =>
    intro data done ls hnd hkeys hvals hok
    rw [tsLevels] at hok
    split at hok
    · split at hok
      · next hde =>
        cases hok
        rw [List.isEmpty_iff] at hde
        subst hde
        refine ⟨GoodLevels.nil done, ?_⟩
        intro x
        simp only [List.not_mem_nil, List.mem_nil_iff]
        constructor
        · rintro ⟨L, hL, _⟩; simp at hL
        · intro hx
          rw [← hkeys] at hx
          simp [dkeys] at hx
      · cases hok
    · cases hok
  | succ fuel ih =>
    intro data done ls hnd hkeys hvals hok
    rw [tsLevels] at hok
    set ordered := (data.filter (fun p => p.2.isEmpty)).map Prod.fst with hord
    by_cases hoe : ordered.isEmpty
    · rw [if_pos hoe] at hok
      split at hok
      · next hde =>
        cases hok
        rw [List.isEmpty_iff] at hde
        subst hde
        refine ⟨GoodLevels.nil done, ?_⟩
        intro x
        constructor
        · rintro ⟨L, hL, _⟩; simp at hL
        · intro hx
          rw [← hkeys] at hx
          simp [dkeys] at hx
      · cases hok
    · rw [if_neg hoe] at hok
      -- facts about the emitted level
      have hord_sub : ∀ k ∈ ordered, ∃ p ∈ data, p.1 = k ∧ p.2 = [] := by
        intro k hk
        rw [hord] at hk
        rcases List.mem_map.mp hk with ⟨p, hp, rfl⟩
        rcases List.mem_filter.mp hp with ⟨hpd, hpe⟩
        exact ⟨p, hpd, rfl, List.isEmpty_iff.mp (by simpa using hpe)⟩
      have hord_keys : ∀ k ∈ ordered, k ∈ dkeys data := by
        intro k hk
        rcases hord_sub k hk with ⟨p, hp, rfl, _⟩
        simp only [dkeys, List.mem_toFinset, List.mem_map]
        exact ⟨p, hp, rfl⟩
      have hord_nodup : ordered.Nodup := by
        rw [hord]
        have hsub : List.Sublist ((data.filter (fun p => p.2.isEmpty)).map Prod.fst)
            (data.map Prod.fst) :=
          (List.filter_sublist data).map Prod.fst
        exact hnd.sublist hsub
      have hord_dep : ∀ k ∈ ordered, ∀ j ∈ dget d k, j ∈ done := by
        intro k hk j hj
        rcases hord_sub k hk with ⟨p, hp, rfl, hpe⟩
        have := (hvals p hp j)
        rw [hpe] at this
        simp only [List.not_mem_nil, false_iff, not_and, not_not] at this
        exact this hj
      have hord_fresh : ∀ k ∈ ordered, k ∉ done := by
        intro k hk
        have := hord_keys k hk
        rw [hkeys] at this
        exact (Finset.mem_sdiff.mp this).2
      -- the recursive data
      set data2 := ((data.filter (fun p => decide (p.1 ∉ ordered))).map
          (fun p => (p.1, p.2.filter (fun i => decide (i ∉ ordered))))) with hdata2
      have hmem2 : ∀ q, q ∈ data2 ↔ ∃ p ∈ data, p.1 ∉ ordered ∧
          q = (p.1, p.2.filter (fun i => decide (i ∉ ordered))) := by
        intro q
        rw [hdata2]
        simp only [List.mem_map, List.mem_filter]
        constructor
        · rintro ⟨p, ⟨hp, hpo⟩, rfl⟩
          exact ⟨p, hp, by simpa using hpo, rfl⟩
        · rintro ⟨p, hp, hpo, rfl⟩
          exact ⟨p, ⟨hp, by simpa using hpo⟩, rfl⟩
      have hnd2 : (data2.map Prod.fst).Nodup := by
        rw [hdata2]
        rw [List.map_map]
        have : (Prod.fst ∘ fun p : String × List String =>
            (p.1, p.2.filter (fun i => decide (i ∉ ordered)))) = Prod.fst := by
          funext p; rfl
        rw [this]
        exact hnd.sublist ((List.filter_sublist data).map Prod.fst)
      have hkeys2 : dkeys data2 = dkeys d \ (done ∪ ordered.toFinset) := by
        ext x
        simp only [Finset.mem_sdiff, Finset.mem_union, List.mem_toFinset]
        constructor
        · intro hx
          simp only [dkeys, List.mem_toFinset, List.mem_map] at hx
          rcases hx with ⟨q, hq, rfl⟩
          rcases (hmem2 q).mp hq with ⟨p, hp, hpo, rfl⟩
          have hpk : p.1 ∈ dkeys data := by
            simp only [dkeys, List.mem_toFinset, List.mem_map]
            exact ⟨p, hp, rfl⟩
          rw [hkeys] at hpk
          rcases Finset.mem_sdiff.mp hpk with ⟨h1, h2⟩
          exact ⟨h1, by push_neg; exact ⟨h2, hpo⟩⟩
        · rintro ⟨hxk, hxno⟩
          push_neg at hxno
          have hxdata : x ∈ dkeys data := by
            rw [hkeys]; exact Finset.mem_sdiff.mpr ⟨hxk, hxno.1⟩
          rcases mem_dkeys_exists hxdata with ⟨v, hv⟩
          simp only [dkeys, List.mem_toFinset, List.mem_map]
          refine ⟨(x, v.filter (fun i => decide (i ∉ ordered))), ?_, rfl⟩
          exact (hmem2 _).mpr ⟨(x, v), hv, hxno.2, rfl⟩
      have hvals2 : ∀ q ∈ data2, ∀ j, j ∈ q.2 ↔
          (j ∈ dget d q.1 ∧ j ∉ done ∪ ordered.toFinset) := by
        intro q hq j
        rcases (hmem2 q).mp hq with ⟨p, hp, hpo, rfl⟩
        simp only [List.mem_filter, Finset.mem_union, List.mem_toFinset,
          decide_eq_true_eq]
        rw [hvals p hp j]
        tauto
      split at hok
      · next ls2 hls2 =>
        cases hok
        obtain ⟨hgood2, hmem2iff⟩ := ih data2 (done ∪ ordered.toFinset) ls2
          hnd2 hkeys2 hvals2 hls2
        constructor
        · exact GoodLevels.cons done ordered ls2 hord_dep hord_fresh
            hord_nodup hgood2
        · intro x
          constructor
          · rintro ⟨L, hL, hxL⟩
            rcases List.mem_cons.mp hL with rfl | hdeep
            · have := hord_keys x hxL
              rw [hkeys] at this
              exact this
            · have := (hmem2iff x).mp ⟨L, hdeep, hxL⟩
              rcases Finset.mem_sdiff.mp this with ⟨h1, h2⟩
              rw [Finset.mem_union] at h2
              push_neg at h2
              exact Finset.mem_sdiff.mpr ⟨h1, h2.1⟩
          · intro hx
            by_cases hxo : x ∈ ordered
            · exact ⟨ordered, List.mem_cons_self _ _, hxo⟩
            · have : x ∈ dkeys d \ (done ∪ ordered.toFinset) := by
                rcases Finset.mem_sdiff.mp hx with ⟨h1, h2⟩
                refine Finset.mem_sdiff.mpr ⟨h1, ?_⟩
                rw [Finset.mem_union]
                push_neg
                exact ⟨h2, by simpa using hxo⟩
              rcases (hmem2iff x).mpr this with ⟨L, hL, hxL⟩
              exact ⟨L, List.mem_cons_of_mem _ hL, hxL⟩
      · cases hok

theorem lookup_append (l1 l2 : List (String × List String)) (k : String) :
    (l1 ++ l2).lookup k =
      match l1.lookup k with
      | some v => some v
      | none => l2.lookup k := by
  induction l1 with
  | nil => simp [List.lookup]
  | cons p rest ih =>
    by_cases hk : k = p.1
    · subst hk
      simp [List.lookup]
    · have hb : (k == p.1) = false := by simpa using hk
      simp only [List.cons_append, List.lookup, hb]
      exact ih

theorem lookup_tsPrep_main (d : List (String × List String)) (k : String) :
    ((d.map (fun p => (p.1, p.2.filter (fun i => decide (i ≠ p.1))))).lookup k) =
      (d.lookup k).map (fun v => v.filter (fun i => decide (i ≠ k))) := by
  induction d with
  | nil => simp [List.lookup]
  | cons p rest ih =>
    by_cases hk : k = p.1
    · subst hk
      simp [List.lookup]
    · have hb : (k == p.1) = false := by simpa using hk
      simp only [List.map_cons, List.lookup, hb]
      exact ih

/-- The dependency sets after preprocessing: the original ones with the
self-dependency removed. -/
theorem mem_dget_tsPrep (d : List (String × List String)) (k j : String) :
    j ∈ dget (tsPrep d) k ↔ j ∈ dget d k ∧ j ≠ k := by
  rw [tsPrep, dget, lookup_append]
  cases hl : d.lookup k with
  | some v =>
    rw [lookup_tsPrep_main, hl]
    simp only [Option.map_some']
    rw [dget, hl]
    simp [List.mem_filter]
  | none =>
    rw [lookup_tsPrep_main, hl]
    have hrhs : dget d k = [] := by rw [dget, hl]
    rw [hrhs]
    simp only [Option.map_none']
    rw [lookup_map_keyfn _ (fun _ => [])]
    by_cases hm : k ∈ ((d.flatMap Prod.snd).dedup).filter
        (fun i => decide (i ∉ d.map Prod.fst))
    · rw [if_pos hm]
      simp
    · rw [if_neg hm]
      simp

theorem dkeys_tsPrep (d : List (String × List String)) :
    dkeys (tsPrep d) = dkeys d ∪ dvals d := by
  ext x
  simp only [dkeys, tsPrep, List.map_append, List.map_map, List.toFinset_append,
    Finset.mem_union, List.mem_toFinset, List.mem_map, Function.comp,
    List.mem_filter, List.mem_dedup, List.mem_flatMap, dvals,
    decide_eq_true_eq]
  constructor
  · rintro (⟨p, hp, rfl⟩ | ⟨i, ⟨⟨p, hp, hip⟩, _⟩, rfl⟩)
    · exact Or.inl ⟨p, hp, rfl⟩
    · exact Or.inr ⟨p, hp, hip⟩
  · rintro (⟨p, hp, rfl⟩ | ⟨p, hp, hxp⟩)
    · exact Or.inl ⟨p, hp, rfl⟩
    · by_cases hxk : ∃ q ∈ d, q.1 = x
      · rcases hxk with ⟨q, hq, rfl⟩
        exact Or.inl ⟨q, hq, rfl⟩
      · exact Or.inr ⟨x, ⟨⟨p, hp, hxp⟩, hxk⟩, rfl⟩

theorem tsPrep_nodup {d : List (String × List String)}
    (hnd : (d.map Prod.fst).Nodup) : ((tsPrep d).map Prod.fst).Nodup := by
  rw [tsPrep, List.map_append, List.map_map, List.map_map]
  have he1 : (Prod.fst ∘ fun p : String × List String =>
      (p.1, p.2.filter (fun i => decide (i ≠ p.1)))) = Prod.fst := by
    funext p; rfl
  have he2 : ∀ l : List String,
      l.map (Prod.fst ∘ fun i : String => (i, ([] : List String))) = l := by
    intro l
    have : (Prod.fst ∘ fun i : String => (i, ([] : List String))) = id := by
      funext i; rfl
    rw [this, List.map_id]
  rw [he1, he2]
  apply List.Nodup.append hnd
  · exact (List.nodup_dedup _).filter _
  · intro a ha hafil
    rcases List.mem_filter.mp hafil with ⟨_, hdec⟩
    have hnot : a ∉ d.map Prod.fst := by simpa using hdec
    exact hnot ha

/-- Correctness of `toposort_flatten` on a successful run: the output is a
duplicate-free enumeration of all keys and value elements in which no element
ever precedes one of its dependencies. -/
theorem toposort_flatten_ok {d : List (String × List String)}
    (hnd : (d.map Prod.fst).Nodup) {l : List String}
    (h : toposort_flatten d = .ok l) :
    (∀ x, x ∈ l ↔ x ∈ dkeys d ∪ dvals d) ∧
    l.Nodup ∧
    l.Pairwise (fun a b => b ∉ dget d a) := by
  rw [toposort_flatten] at h
  split at h
  · next ls hls =>
    cases h
    have hprep_nodup := tsPrep_nodup hnd
    have hkeq : dkeys (tsPrep d) = dkeys (tsPrep d) \ (∅ : Finset String) :=
      Finset.sdiff_empty.symm
    have hveq : ∀ p ∈ tsPrep d, ∀ j, j ∈ p.2 ↔
        (j ∈ dget (tsPrep d) p.1 ∧ j ∉ (∅ : Finset String)) := by
      intro p hp j
      have hp' : (p.1, p.2) ∈ tsPrep d := by simpa using hp
      rw [dget_eq_of_mem hprep_nodup hp']
      simp
    obtain ⟨hgood, hmem⟩ := tsLevels_good (tsPrep d) (tsPrep d).length
      (tsPrep d) ∅ ls hprep_nodup hkeq hveq hls
    have hmem' : ∀ x, (∃ L ∈ ls, x ∈ L) ↔ x ∈ dkeys (tsPrep d) := by
      intro x
      rw [hmem x, Finset.sdiff_empty]
    refine ⟨?_, goodLevels_nodup hgood, ?_⟩
    · intro x
      rw [List.mem_flatMap, ← dkeys_tsPrep, ← hmem' x]
      constructor
      · rintro ⟨L, hL, hxL⟩
        exact ⟨L, hL, (mem_sortStr).mp hxL⟩
      · rintro ⟨L, hL, hxL⟩
        exact ⟨L, hL, (mem_sortStr).mpr hxL⟩
    · have hpair := goodLevels_pairwise hgood
      have hnodup := goodLevels_nodup hgood
      have hcomb := hpair.and hnodup
      apply hcomb.imp
      intro a b hab
      rcases hab with ⟨hnotmem, hne⟩
      intro hmem'
      exact hnotmem ((mem_dget_tsPrep d a b).mpr ⟨hmem', fun he => hne (he ▸ rfl)⟩)
  · cases h

/-! ## Name / tag filters of `main`

`names_to_re` compiles glob patterns into one regular expression; the
brace-expansion, glob-translation and regex matching are external collaborators
and are abstracted by the `matchOne` parameter.  What matters structurally is
that an empty pattern list yields `None` (no filter). -/

/-- Embedding of `join_split(seq)` from `_cli.py`: join on spaces, re-split,
drop the empty result. -/
def join_split (seq : List String) : List String :=
  (((String.intercalate " " seq).data.splitOn ' ').map (fun cs => String.mk cs)).filter
    (fun s => !s.isEmpty)

/-- Embedding of `names_to_re(names)`: `None` for an empty list, else the
compiled alternation, modelled by its matching function. -/
def names_to_re (matchOne : String → String → Bool) (names : List String) :
    Option (String → Bool) :=
  if names.isEmpty then none
  else some (fun s => names.any (fun pat => matchOne pat s))

/-- Embedding of `make_tags_matcher(exprs)`: `None` for no expressions, else
the OR of the compiled evaluators (compilation abstracted by `compileExpr`). -/
def make_tags_matcher (compileExpr : String → Finset String → Bool)
    (exprs : List String) : Option (Finset String → Bool) :=
  if exprs.isEmpty then none
  else some (fun tags => exprs.any (fun e => compileExpr e tags))

/-- Embedding of `main.is_included`: mirrors
`not(only and not only.match(n) or tags and not tags(current_tags[n]))`,
where a `None` option is falsy. -/
def is_included (only : Option (String → Bool))
    (tags : Option (Finset String → Bool))
    (currentTags : String → Finset String) (name : String) : Bool :=
  !((match only with | some m => !(m name) | none => false)
    || (match tags with | some m => !(m (currentTags name)) | none => false))

/-- Embedding of `main.is_excluded`: mirrors
`skip and skip.match(n) or skip_tags and skip_tags(current_tags[n])`. -/
def is_excluded (skip : Option (String → Bool))
    (skipTags : Option (Finset String → Bool))
    (currentTags : String → Finset String) (name : String) : Bool :=
  (match skip with | some m => m name | none => false)
  || (match skipTags with | some m => m (currentTags name) | none => false)

/-! ## The selection pipeline of `main` (lines 1043-1076)

`modelDeps` is `model.dependencies` (one entry per model resource),
`existingDeps` is `existing_dependencies` (one entry per persisted resource,
`set(v["deps"])`), `inc`/`exc` are the closures `is_included`/`is_excluded`,
and `downFlag` is `opts.down`. -/

structure SelArgs where
  modelDeps : List (String × List String)
  existingDeps : List (String × List String)
  inc : String → Bool
  exc : String → Bool
  downFlag : Bool

/-- The base candidate set for down: all existing resources, narrowed to the
stale ones (`-= set(model.resources)`) unless `--down` was given. -/
def downBase (s : SelArgs) : Finset String :=
  if s.downFlag then dkeys s.existingDeps
  else dkeys s.existingDeps \ dkeys s.modelDeps

/-- The base candidate list for up: the model's topological order, or empty
under `--down`. -/
def upBase (s : SelArgs) (order : List String) : List String :=
  if s.downFlag then [] else order

/-- Down candidates surviving `is_included`. -/
def downIncluded (s : SelArgs) : Finset String :=
  (downBase s).filter (fun n => s.inc n = true)

/-- Down candidates expanded by all transitive dependents. -/
def downExpanded (s : SelArgs) : Finset String :=
  with_all_dependents (downIncluded s) s.existingDeps

/-- The final down set: expansion minus everything an excluded member
transitively depends on. -/
def downSel (s : SelArgs) : Finset String :=
  downExpanded s \ with_all_dependencies
    ((downExpanded s).filter (fun n => s.exc n = true)) s.existingDeps

/-- Up candidates surviving `is_included`, as a set. -/
def upIncluded (s : SelArgs) (order : List String) : Finset String :=
  ((upBase s order).filter s.inc).toFinset

/-- Up candidates expanded by all transitive dependencies. -/
def upExpanded (s : SelArgs) (order : List String) : Finset String :=
  with_all_dependencies (upIncluded s order) s.modelDeps

/-- The final up set: expansion minus every transitive dependent of an
excluded member. -/
def upSel (s : SelArgs) (order : List String) : Finset String :=
  upExpanded s order \ with_all_dependents
    ((upExpanded s order).filter (fun n => s.exc n = true)) s.modelDeps

/-- The full selection computation of `main`: returns the ordered down list
(reverse topological) and up list (forward topological). -/
def computeSelection (s : SelArgs) :
    Except (List (String × List String)) (List String × List String) :=
  match toposort_flatten s.modelDeps with
  | .error e => .error e
  | .ok order =>
    match toposort_dependencies (downSel s) s.existingDeps with
    | .error e => .error e
    | .ok dlist =>
      match toposort_dependencies (upSel s order) s.modelDeps with
      | .error e => .error e
      | .ok ulist => .ok (dlist.reverse, ulist)

theorem upExpanded_reaches_closed {s : SelArgs} {order : List String}
    {x y : String} (hx : x ∈ upExpanded s order)
    (hr : Reaches s.modelDeps x y) : y ∈ upExpanded s order := by
  induction hr with
  | refl => exact hx
  | tail _ hm ih => exact wad_closed ih hm

theorem downExpanded_inv_reaches_closed {s : SelArgs} {x y : String}
    (hx : x ∈ downExpanded s) (hr : Reaches (inverse_setdict s.existingDeps) x y) :
    y ∈ downExpanded s := by
  induction hr with
  | refl => exact hx
  | tail _ hm ih => exact wad_closed ih hm

theorem upSel_step_closed {s : SelArgs} {order : List String}
    (hndm : (s.modelDeps.map Prod.fst).Nodup) {x y : String}
    (hx : x ∈ upSel s order) (hm : y ∈ dget s.modelDeps x) :
    y ∈ upSel s order := by
  rcases Finset.mem_sdiff.mp hx with ⟨hxe, hxr⟩
  refine Finset.mem_sdiff.mpr ⟨wad_closed hxe hm, ?_⟩
  intro hyr
  apply hxr
  rcases mem_with_all_dependencies.mp hyr with ⟨e, he, hre⟩
  have hxkey : x ∈ dkeys s.modelDeps := by
    apply mem_dkeys_of_dget_ne
    intro hempty
    rw [hempty] at hm
    simp at hm
  have hstep : x ∈ dget (inverse_setdict s.modelDeps) y :=
    (mem_dget_inverse_nodup hndm).mpr ⟨hxkey, hm⟩
  exact mem_with_all_dependencies.mpr ⟨e, he, Reaches.tail hre hstep⟩

theorem upSel_reaches_closed {s : SelArgs} {order : List String}
    (hndm : (s.modelDeps.map Prod.fst).Nodup) {x y : String}
    (hx : x ∈ upSel s order) (hr : Reaches s.modelDeps x y) :
    y ∈ upSel s order := by
  induction hr with
  | refl => exact hx
  | tail _ hm ih => exact upSel_step_closed hndm ih hm

theorem downSel_step_closed {s : SelArgs} {x k : String}
    (hx : x ∈ downSel s) (hm : x ∈ dget s.existingDeps k)
    (hnde : (s.existingDeps.map Prod.fst).Nodup) : k ∈ downSel s := by
  rcases Finset.mem_sdiff.mp hx with ⟨hxe, hxr⟩
  have hkkey : k ∈ dkeys s.existingDeps := by
    apply mem_dkeys_of_dget_ne
    intro hempty
    rw [hempty] at hm
    simp at hm
  have hstep : k ∈ dget (inverse_setdict s.existingDeps) x :=
    (mem_dget_inverse_nodup hnde).mpr ⟨hkkey, hm⟩
  refine Finset.mem_sdiff.mpr ⟨wad_closed hxe hstep, ?_⟩
  intro hkr
  apply hxr
  rcases mem_with_all_dependencies.mp hkr with ⟨e, he, hre⟩
  exact mem_with_all_dependencies.mpr ⟨e, he, Reaches.tail hre hm⟩

theorem downSel_dependent_closed {s : SelArgs}
    (hnde : (s.existingDeps.map Prod.fst).Nodup) {x y : String}
    (hx : x ∈ downSel s) (hr : Reaches s.existingDeps y x) : y ∈ downSel s := by
  induction hr with
  | refl => exact hx
  | tail h1 hm ih =>
    exact ih (downSel_step_closed hx hm hnde)

theorem upSel_subset_univ {s : SelArgs} {order : List String}
    (hordmem : ∀ x, x ∈ order ↔ x ∈ dkeys s.modelDeps ∪ dvals s.modelDeps) :
    upSel s order ⊆ dkeys s.modelDeps ∪ dvals s.modelDeps := by
  intro x hx
  have h1 : x ∈ upExpanded s order := (Finset.mem_sdiff.mp hx).1
  rcases Finset.mem_union.mp (wad_subset_union _ _ h1) with h | h
  · rw [upIncluded] at h
    rcases List.mem_toFinset.mp h with hmem
    have := List.mem_of_mem_filter hmem
    rw [upBase] at this
    split at this
    · simp at this
    · exact (hordmem x).mp this
  · exact Finset.mem_union.mpr (Or.inr h)

theorem downSel_subset_keys {s : SelArgs} :
    downSel s ⊆ dkeys s.existingDeps := by
  intro x hx
  have h1 : x ∈ downExpanded s := (Finset.mem_sdiff.mp hx).1
  rcases Finset.mem_union.mp (wad_subset_union _ _ h1) with h | h
  · have := Finset.mem_of_mem_filter _ h
    rw [downBase] at this
    split at this
    · exact this
    · exact (Finset.mem_sdiff.mp this).1
  · exact dvals_inverse_subset_dkeys _ h

/-- Claim C1 as frozen is refuted by `c1cex` below; this is the amended form:
the final lists themselves are transitively closed. -/
theorem c1_selection (s : SelArgs)
    (hndm : (s.modelDeps.map Prod.fst).Nodup)
    (hnde : (s.existingDeps.map Prod.fst).Nodup)
    (dl ul : List String)
    (h : computeSelection s = .ok (dl, ul)) :
    (∀ x ∈ ul, ∀ y, Reaches s.modelDeps x y → y ∈ ul) ∧
    (∀ x ∈ dl, ∀ y, Reaches s.existingDeps y x → y ∈ dl) ∧
    (∀ e, s.exc e = true → ∀ x ∈ ul, ¬ Reaches s.modelDeps x e) ∧
    (∀ e, s.exc e = true → ∀ y ∈ dl, ¬ Reaches s.existingDeps e y) ∧
    ul.Pairwise (fun a b => b ∉ dget s.modelDeps a) ∧
    dl.Pairwise (fun a b => a ∉ dget s.existingDeps b) := by
  cases hflat : toposort_flatten s.modelDeps with
  | error e =>
    simp only [computeSelection, hflat] at h
    cases h
  | ok order =>
  cases hdl2 : toposort_dependencies (downSel s) s.existingDeps with
  | error e =>
    simp only [computeSelection, hflat, hdl2] at h
    cases h
  | ok dlist =>
  cases hul2 : toposort_dependencies (upSel s order) s.modelDeps with
  | error e =>
    simp only [computeSelection, hflat, hdl2, hul2] at h
    cases h
  | ok ulist =>
  simp only [computeSelection, hflat, hdl2, hul2, Except.ok.injEq, Prod.mk.injEq] at h
  obtain ⟨hh1, hh2⟩ := h
  subst hh1
  subst hh2
  obtain ⟨dflat, hdflat, hdeq⟩ : ∃ dflat,
      toposort_flatten s.existingDeps = .ok dflat ∧
      dlist = dflat.filter (fun i => decide (i ∈ downSel s)) := by
    cases hdf : toposort_flatten s.existingDeps with
    | error e =>
      rw [toposort_dependencies, hdf] at hdl2
      cases hdl2
    | ok dflat =>
      rw [toposort_dependencies, hdf] at hdl2
      cases hdl2
      exact ⟨dflat, rfl, rfl⟩
  subst hdeq
  have hueq : ulist = order.filter (fun i => decide (i ∈ upSel s order)) := by
    rw [toposort_dependencies, hflat] at hul2
    cases hul2
    rfl
  subst hueq
  have horder := toposort_flatten_ok hndm hflat
  have hdord := toposort_flatten_ok hnde hdflat
  have hmemu : ∀ x, x ∈ order.filter (fun i => decide (i ∈ upSel s order)) ↔
      x ∈ order ∧ x ∈ upSel s order := by
    intro x
    rw [List.mem_filter]
    simp
  have hmemd : ∀ x, x ∈ (dflat.filter
        (fun i => decide (i ∈ downSel s))).reverse ↔
      x ∈ dflat ∧ x ∈ downSel s := by
    intro x
    rw [List.mem_reverse, List.mem_filter]
    simp
  refine ⟨?_, ?_, ?_, ?_, ?_, ?_⟩
  · intro x hx y hr
    rcases (hmemu x).mp hx with ⟨hxf, hxs⟩
    refine (hmemu y).mpr ⟨?_, upSel_reaches_closed hndm hxs hr⟩
    rw [horder.1 y]
    exact upSel_subset_univ horder.1 (upSel_reaches_closed hndm hxs hr)
  · intro x hx y hr
    rcases (hmemd x).mp hx with ⟨hxf, hxs⟩
    refine (hmemd y).mpr ⟨?_, downSel_dependent_closed hnde hxs hr⟩
    rw [hdord.1 y]
    exact Finset.mem_union.mpr (Or.inl
      (downSel_subset_keys (downSel_dependent_closed hnde hxs hr)))
  · intro e hexc x hx hr
    rcases (hmemu x).mp hx with ⟨hxf, hxs⟩
    rcases Finset.mem_sdiff.mp hxs with ⟨hxe, hxr⟩
    apply hxr
    have heexp : e ∈ upExpanded s order := upExpanded_reaches_closed hxe hr
    have heF : e ∈ (upExpanded s order).filter (fun n => s.exc n = true) :=
      Finset.mem_filter.mpr ⟨heexp, hexc⟩
    exact mem_with_all_dependencies.mpr
      ⟨e, heF, inv_of_reaches hndm hr (Reaches.src_key hr)⟩
  · intro e hexc y hy hr
    rcases (hmemd y).mp hy with ⟨hyf, hys⟩
    rcases Finset.mem_sdiff.mp hys with ⟨hye, hyr⟩
    by_cases heexp : e ∈ downExpanded s
    · apply hyr
      have heF : e ∈ (downExpanded s).filter (fun n => s.exc n = true) :=
        Finset.mem_filter.mpr ⟨heexp, hexc⟩
      exact mem_with_all_dependencies.mpr ⟨e, heF, hr⟩
    · rcases Reaches.src_key hr with rfl | hekey
      · exact heexp hye
      · exact heexp (downExpanded_inv_reaches_closed hye
          (inv_of_reaches hnde hr (Or.inr hekey)))
  · exact horder.2.2.sublist (List.filter_sublist _)
  · rw [List.pairwise_reverse]
    exact (hdord.2.2.sublist (List.filter_sublist _)).imp (fun h => h)

/-- Concrete input refuting claim C1 as frozen: a three-resource chain
`X -> D -> E` with everything included and `E` excluded. -/
def c1cex : SelArgs where
  modelDeps := [("X", ["D"]), ("D", ["E"]), ("E", [])]
  existingDeps := []
  inc := fun _ => true
  exc := fun n => n == "E"
  downFlag := false

/-- Counterexample to claim C1 as frozen: `X` is an included up candidate and
`D` is a transitive dependency of `X`, yet the computed up list is empty, so
the up list does not contain every transitive dependency of every included up
candidate.  (The exclusion of `E` empties the whole list.) -/
theorem c1_counterexample :
    c1cex.inc "X" = true ∧
    toposort_flatten c1cex.modelDeps = .ok ["E", "D", "X"] ∧
    "X" ∈ ["E", "D", "X"] ∧
    Reaches c1cex.modelDeps "X" "D" ∧
    computeSelection c1cex = .ok ([], []) ∧
    "D" ∉ ([] : List String) := by
  refine ⟨rfl, by rfl, by decide, Reaches.single (by decide), by rfl, by decide⟩

/-- Witness instance for `c1_selection`. -/
def c1wit : SelArgs where
  modelDeps := [("app", ["db"]), ("db", [])]
  existingDeps := [("gone", [])]
  inc := fun _ => true
  exc := fun _ => false
  downFlag := false

theorem c1_witness :
    computeSelection c1wit = .ok (["gone"], ["db", "app"]) ∧
    ("db" : String) ∈ ["db", "app"] :=
  ⟨by rfl,
    (c1_selection c1wit (by decide) (by decide) ["gone"] ["db", "app"]
      (by rfl)).1 "app" (by decide) "db" (Reaches.single (by decide))⟩

/-- Claim C10: with no `--only`, `--skip`, `--tags`, `--skip-tags` options the
include predicate is constantly true and the exclude predicate constantly
false, so the include filter keeps every base candidate and the
exclusion-protection subtraction removes nothing. -/
theorem c10_default_selection
    (mo : String → String → Bool) (tc : String → Finset String → Bool)
    (ct : String → Finset String) (s : SelArgs) (order : List String)
    (hinc : s.inc = fun n => is_included (names_to_re mo (join_split []))
      (make_tags_matcher tc []) ct n)
    (hexc : s.exc = fun n => is_excluded (names_to_re mo (join_split []))
      (make_tags_matcher tc []) ct n) :
    (∀ n, s.inc n = true) ∧
    (∀ n, s.exc n = false) ∧
    downIncluded s = downBase s ∧
    upIncluded s order = (upBase s order).toFinset ∧
    downSel s = downExpanded s ∧
    upSel s order = upExpanded s order := by
  have h1 : ∀ n, s.inc n = true := by
    intro n
    rw [hinc]
    rfl
  have h2 : ∀ n, s.exc n = false := by
    intro n
    rw [hexc]
    rfl
  have hdi : downIncluded s = downBase s := by
    rw [downIncluded]
    apply Finset.filter_true_of_mem
    intro x _
    exact h1 x
  have hui : upIncluded s order = (upBase s order).toFinset := by
    rw [upIncluded]
    congr 1
    apply List.filter_eq_self.mpr
    intro a _
    exact h1 a
  have hexcempty : ∀ t : Finset String,
      t.filter (fun n => s.exc n = true) = ∅ := by
    intro t
    apply Finset.filter_false_of_mem
    intro x _
    rw [h2 x]
    simp
  refine ⟨h1, h2, hdi, hui, ?_, ?_⟩
  · rw [downSel, hexcempty, wad_empty, Finset.sdiff_empty]
  · rw [upSel, hexcempty, with_all_dependents, wad_empty, Finset.sdiff_empty]

/-- Witness instance for `c10_default_selection`. -/
def c10wit : SelArgs where
  modelDeps := [("a", [])]
  existingDeps := []
  inc := fun n => is_included (names_to_re (fun _ _ => false) (join_split []))
    (make_tags_matcher (fun _ _ => false) []) (fun _ => ∅) n
  exc := fun n => is_excluded (names_to_re (fun _ _ => false) (join_split []))
    (make_tags_matcher (fun _ _ => false) []) (fun _ => ∅) n
  downFlag := false

theorem c10_witness : c10wit.inc "a" = true ∧ c10wit.exc "a" = false :=
  ⟨(c10_default_selection (fun _ _ => false) (fun _ _ => false) (fun _ => ∅)
      c10wit [] rfl rfl).1 "a",
   (c10_default_selection (fun _ _ => false) (fun _ _ => false) (fun _ => ∅)
      c10wit [] rfl rfl).2.1 "a"⟩

/-! ## The convergence engine (`up_resource` / `down_resource`)

Rendered file bags are path-to-content dictionaries (`'/'.join(fname)` keys).
External effects are oracles: script exit statuses, interactive confirmations,
checkpoint lines arriving over the FIFO, and the files the action leaves in
the `exports`/`mementos`/`state` directories.  The observable behaviour is the
trace of `state.write()` calls and script executions plus the resulting
resource state. -/

/-- The four file bags of a resource, after rendering. -/
structure Bags where
  up : List (String × String)
  down : List (String × String)
  common : List (String × String)
  precheck : List (String × String)
  deriving DecidableEq

def emptyBags : Bags := ⟨[], [], [], []⟩

/-- A resource's entry in the persisted state document.  Every field is
optional because the Python dict may lack the key (`dict.get` defaults are
applied at the use sites, as in the source). -/
structure ResState where
  dirty : Option Bool := none
  files : Option Bags := none
  deps : Option (List String) := none
  tags : Option (List String) := none
  used_modes : Option (List String) := none
  exports : Option (List (String × String)) := none
  mementos : Option (List (String × String)) := none
  mementos_modes : Option (List (String × List String)) := none
  istate : Option (List (String × String)) := none
  checkpoint : Option String := none
  message : Option String := none
  deriving DecidableEq

theorem lookupv_eq_some_mem {β : Type} [DecidableEq β]
    {d : List (String × β)} {k : String} {v : β}
    (h : d.lookup k = some v) : (k, v) ∈ d := by
  induction d with
  | nil => simp [List.lookup] at h
  | cons p rest ih =>
    obtain ⟨p1, p2⟩ := p
    rw [List.lookup] at h
    by_cases hk : k = p1
    · subst hk
      simp at h
      subst h
      exact List.mem_cons_self _ _
    · have hb : (k == p1) = false := by simpa using hk
      rw [hb] at h
      exact List.mem_cons_of_mem _ (ih h)

/-- Python dict equality on a path-to-content map, read through lookups. -/
def dictBeq (a b : List (String × String)) : Bool :=
  a.all (fun p => b.lookup p.1 == some p.2) &&
    b.all (fun p => a.lookup p.1 == some p.2)

/-- Embedding of `add_dicts(a, b)` from `_cli.py`: `dict(a)` updated by `b`,
later entries winning; with first-match lookup that is `b ++ a`. -/
def add_dicts (a b : List (String × String)) : List (String × String) := b ++ a

/-- Python dict equality bag by bag (for the stored `files` value). -/
def bagsBeq (a b : Bags) : Bool :=
  dictBeq a.up b.up && dictBeq a.down b.down && dictBeq a.common b.common &&
    dictBeq a.precheck b.precheck

theorem dictBeq_lookup_eq {a b : List (String × String)}
    (h : dictBeq a b = true) : ∀ k, a.lookup k = b.lookup k := by
  rw [dictBeq, Bool.and_eq_true, List.all_eq_true, List.all_eq_true] at h
  intro k
  cases hl : a.lookup k with
  | some v =>
    have hb : b.lookup k = some v := by
      simpa using h.1 (k, v) (lookupv_eq_some_mem hl)
    rw [hb]
  | none =>
    cases hr : b.lookup k with
    | none => rfl
    | some w =>
      have := h.2 (k, w) (lookupv_eq_some_mem hr)
      simp at this
      rw [hl] at this
      cases this

theorem dictBeq_refl {a : List (String × String)}
    (h : (a.map Prod.fst).Nodup) : dictBeq a a = true := by
  have hl : ∀ p ∈ a, a.lookup p.1 = some p.2 := by
    intro p hp
    induction a with
    | nil => simp at hp
    | cons q rest ih =>
      simp only [List.map_cons, List.nodup_cons] at h
      rcases List.mem_cons.mp hp with rfl | hmem
      · simp [List.lookup]
      · have hne : p.1 ≠ q.1 := by
          intro he
          exact h.1 (he ▸ (List.mem_map.mpr ⟨p, hmem, rfl⟩))
        rw [List.lookup]
        have hb : (p.1 == q.1) = false := by simpa using hne
        rw [hb]
        exact ih h.2 hmem
  rw [dictBeq, Bool.and_eq_true, List.all_eq_true]
  constructor
  · intro p hp
    simp [hl p hp]
  · intro p hp
    simp [hl p hp]

/-- Observable events of a resource transition: persisted writes of the
resource's state entry (`none` = entry deleted) and script executions with
the files present in the script's working directory. -/
inductive Event where
  | write (name : String) (rs : Option ResState)
  | script (kind : String) (dir : List (String × String))
  deriving DecidableEq

/-- The error outcomes of `up_resource`/`down_resource`: a declined
interactive confirmation, a failed script, and the export/memento contract
violations with the offending resource and names. -/
inductive CliError where
  | abort
  | scriptFail (kind res : String)
  | missingProduct (res kind name : String)
  | unexpectedProduct (res kind : String) (names : List String)
  deriving DecidableEq

/-- Embedding of `up_resource.check_products`: for variables and then for
mementos, fail on the first declared-but-missing name, then on any
undeclared-but-produced names (sorted, deduplicated). -/
def check_products (resName : String) (declE declM : List String)
    (prodE prodM : List (String × String)) : Except CliError Unit :=
  match declE.find? (fun x => (prodE.lookup x).isNone) with
  | some x => .error (.missingProduct resName "variable" x)
  | none =>
    let unexpectedE := sortStr (((prodE.map Prod.fst).filter
        (fun x => decide (x ∉ declE))).dedup)
    if !unexpectedE.isEmpty then
      .error (.unexpectedProduct resName "variable" unexpectedE)
    else
      match declM.find? (fun x => (prodM.lookup x).isNone) with
      | some x => .error (.missingProduct resName "memento" x)
      | none =>
        let unexpectedM := sortStr (((prodM.map Prod.fst).filter
            (fun x => decide (x ∉ declM))).dedup)
        if !unexpectedM.isEmpty then
          .error (.unexpectedProduct resName "memento" unexpectedM)
        else .ok ()

/-- Oracle for everything outside the engine: script exit statuses, the
interactive confirmations, the checkpoint lines arriving over the FIFO while
the up action runs, and the files the action produced. -/
structure ScriptOracle where
  stepOk : Bool
  downIdentExit : Bool
  downIdentConfirm : Bool
  precheckExit : Bool
  upExit : Bool
  cpLines : List String
  exportsProduced : List (String × String)
  mementosProduced : List (String × String)
  mementosModes : List (String × List String)
  istateAfter : Option (List (String × String))
  messageFile : Option String
  deriving DecidableEq

/-- Inputs of one `up_resource` call: the flags, the resource's declaration
data, the freshly rendered bags, the prior state entry (if any) and the
oracle. -/
structure UpArgs where
  step : Bool
  full : Bool
  ignore_identity_change : Bool
  ignore_checkpoints : Bool
  ignore_precheck : Bool
  resName : String
  alwaysRefresh : Bool
  declaredExports : List String
  declaredMementos : List String
  newTags : List String
  newDeps : List String
  usedModes : List String
  newFiles : Bags
  prior : Option ResState
  oracle : ScriptOracle

/-- `new_up_and_common = add_dicts(new_files['common'], new_files['up'])`. -/
def upNewUC (a : UpArgs) : List (String × String) :=
  add_dicts a.newFiles.common a.newFiles.up

def upIsNew (a : UpArgs) : Bool := a.prior.isNone

def upRs0 (a : UpArgs) : ResState := a.prior.getD {}

/-- `old_files = resource_state.get('files', {})`. -/
def upOldFiles (a : UpArgs) : Bags := (upRs0 a).files.getD emptyBags

def upOldUC (a : UpArgs) : List (String × String) :=
  add_dicts (upOldFiles a).common (upOldFiles a).up

/-- `dirty = resource_state.get('dirty', True)`. -/
def upDirtyFlag (a : UpArgs) : Bool := (upRs0 a).dirty.getD true

/-- The trigger condition of `up_resource` line 508:
`full or dirty or always_refresh or new_up_and_common != old_up_and_common`. -/
def upTrigger (a : UpArgs) : Bool :=
  a.full || upDirtyFlag a || a.alwaysRefresh ||
    !(dictBeq (upNewUC a) (upOldUC a))

/-- State after `resource_state['dirty'] = True; resource_state.pop('exports')`. -/
def upRs1 (a : UpArgs) : ResState :=
  { upRs0 a with dirty := some true, exports := none }

/-- The identity-change condition of lines 520-523. -/
def upIdentityChanged (a : UpArgs) : Bool :=
  !upIsNew a && !a.ignore_identity_change &&
    !((upNewUC a).lookup "identity" == (upOldUC a).lookup "identity")

/-- The isolated teardown directory: stored `common` then `down` files. -/
def upDownDir (a : UpArgs) : List (String × String) :=
  add_dicts (upOldFiles a).common (upOldFiles a).down

/-- Events of the identity-change teardown: persist the dirty state, then run
the down script on the old files. -/
def upEv1 (a : UpArgs) : List Event :=
  if upIdentityChanged a then
    [Event.write a.resName (some (upRs1 a)),
     Event.script "down" (upDownDir a)]
  else []

/-- The precheck condition of line 562 (new resource, not skipped, non-empty
precheck script). -/
def upPrecheckNeeded (a : UpArgs) : Bool :=
  upIsNew a && !a.ignore_precheck &&
    !(((a.newFiles.precheck.lookup "script.sh").getD "").isEmpty)

def upEv2 (a : UpArgs) : List Event :=
  if upPrecheckNeeded a then
    [Event.script "precheck" (add_dicts a.newFiles.common a.newFiles.precheck)]
  else []

/-- `last_checkpoint = resource_state.pop('checkpoint', None)`. -/
def upLastCp (a : UpArgs) : Option String := (upRs1 a).checkpoint

/-- State persisted right before the up action: checkpoint popped, new
`files`/`deps`/`tags`/`used_modes` recorded, still dirty, no exports. -/
def upRs3 (a : UpArgs) : ResState :=
  { upRs1 a with
      checkpoint := none
      files := some a.newFiles
      deps := some a.newDeps
      tags := some a.newTags
      used_modes := some a.usedModes }

/-- Contents of the up working directory at action start: the rendered
`common`+`up` files, plus the `last-checkpoint` marker when resuming. -/
def upWorkDir (a : UpArgs) : List (String × String) :=
  if (upLastCp a).isSome && !a.ignore_checkpoints then
    ("last-checkpoint", (upLastCp a).getD "") :: upNewUC a
  else upNewUC a

def upEv3 (a : UpArgs) : List Event :=
  [Event.write a.resName (some (upRs3 a)),
   Event.script "up" (upWorkDir a)]

/-- The checkpoint listener: every FIFO line becomes the new checkpoint value
and is persisted immediately. -/
def cpTrace (res : String) (rs : ResState) : List String → List Event × ResState
  | [] => ([], rs)
  | l :: ls =>
    let rs1 := { rs with checkpoint := some l }
    let r := cpTrace res rs1 ls
    (Event.write res (some rs1) :: r.1, r.2)

def upCps (a : UpArgs) : List Event × ResState :=
  cpTrace a.resName (upRs3 a) a.oracle.cpLines

/-- Final committed state on success (lines 631-640). -/
def upRs5 (a : UpArgs) : ResState :=
  { (upCps a).2 with
      dirty := some false
      exports := some a.oracle.exportsProduced
      mementos := some a.oracle.mementosProduced
      mementos_modes := some a.oracle.mementosModes
      message := a.oracle.messageFile
      istate := a.oracle.istateAfter
      checkpoint := none }

/-- The metadata-only update of the up-to-date branch (line 653). -/
def upMetaSame (a : UpArgs) : Bool :=
  ((upRs0 a).deps == some a.newDeps) &&
    (match (upRs0 a).files with
     | some b => bagsBeq b a.newFiles
     | none => false) &&
    ((upRs0 a).tags.getD [] == a.newTags)

def upRs4 (a : UpArgs) : ResState :=
  { upRs0 a with
      files := some a.newFiles
      deps := some a.newDeps
      tags := some a.newTags }

/-- Embedding of `up_resource` from `_cli.py`: the event trace plus the
outcome (final resource state, export values, operator message). -/
def up_resource (a : UpArgs) :
    List Event × Except CliError (ResState × List (String × String) × Option String) :=
  if upTrigger a then
    if a.step && !a.oracle.stepOk then ([], .error .abort)
    else if upIdentityChanged a &&
        !(a.oracle.downIdentExit || a.oracle.downIdentConfirm) then
      (upEv1 a, .error (.scriptFail "down" a.resName))
    else if upPrecheckNeeded a && !a.oracle.precheckExit then
      (upEv1 a ++ upEv2 a, .error (.scriptFail "precheck" a.resName))
    else if !a.oracle.upExit then
      (upEv1 a ++ upEv2 a ++ upEv3 a ++ (upCps a).1,
        .error (.scriptFail "up" a.resName))
    else
      match check_products a.resName a.declaredExports a.declaredMementos
          a.oracle.exportsProduced a.oracle.mementosProduced with
      | .error e => (upEv1 a ++ upEv2 a ++ upEv3 a ++ (upCps a).1, .error e)
      | .ok _ =>
        (upEv1 a ++ upEv2 a ++ upEv3 a ++ (upCps a).1 ++
            [Event.write a.resName (some (upRs5 a))],
          .ok (upRs5 a, a.oracle.exportsProduced, a.oracle.messageFile))
  else
    match check_products a.resName a.declaredExports a.declaredMementos
        ((upRs0 a).exports.getD []) ((upRs0 a).mementos.getD []) with
    | .error e => ([], .error e)
    | .ok _ =>
      if upMetaSame a then
        ([], .ok (upRs0 a, (upRs0 a).exports.getD [], (upRs0 a).message))
      else
        ([Event.write a.resName (some (upRs4 a))],
          .ok (upRs4 a, (upRs0 a).exports.getD [], (upRs0 a).message))

/-- Inputs of one `down_resource` call. -/
structure DownArgs where
  step : Bool
  resName : String
  prior : ResState
  stepOk : Bool
  downExit : Bool
  downConfirm : Bool
  messageFile : Option String

/-- Embedding of `down_resource` from `_cli.py`: mark dirty and persist,
run the down script on the stored `common`+`down` files, then delete the
entry and persist. -/
def down_resource (a : DownArgs) : List Event × Except CliError (Option String) :=
  if a.step && !a.stepOk then ([], .error .abort)
  else
    let rs1 := { a.prior with dirty := some true }
    let old_files := a.prior.files.getD emptyBags
    let evs := [Event.write a.resName (some rs1),
      Event.script "down" (add_dicts old_files.common old_files.down)]
    if !(a.downExit || a.downConfirm) then
      (evs, .error (.scriptFail "down" a.resName))
    else (evs ++ [Event.write a.resName none], .ok a.messageFile)

def isScript : Event → Bool
  | Event.script _ _ => true
  | _ => false

def isUpScript : Event → Bool
  | Event.script k _ => k == "up"
  | _ => false

def hasUpScript (t : List Event) : Bool := t.any isUpScript

def hasScript (t : List Event) : Bool := t.any isScript

theorem cpTrace_all_writes (res : String) (ls : List String) :
    ∀ rs, ∀ e ∈ (cpTrace res rs ls).1, ∃ r, e = Event.write res (some r) := by
  induction ls with
  | nil => intro rs e he; simp [cpTrace] at he
  | cons l ls ih =>
    intro rs e he
    rw [cpTrace] at he
    rcases List.mem_cons.mp he with rfl | hmem
    · exact ⟨_, rfl⟩
    · exact ih _ e hmem

theorem cpTrace_files (res : String) (ls : List String) :
    ∀ rs, (cpTrace res rs ls).2.files = rs.files := by
  induction ls with
  | nil => intro rs; rfl
  | cons l ls ih => intro rs; rw [cpTrace]; exact ih _

theorem cpTrace_filter_scripts (res : String) (ls : List String) :
    ∀ rs, ((cpTrace res rs ls).1.filter isScript) = [] := by
  induction ls with
  | nil => intro rs; rfl
  | cons l ls ih =>
    intro rs
    rw [cpTrace]
    simp only [List.filter_cons]
    rw [show isScript (Event.write res (some { rs with checkpoint := some l })) =
      false from rfl]
    simp only [Bool.false_eq_true, if_false]
    exact ih _

theorem cpTrace_no_up (res : String) (ls : List String) :
    ∀ rs, ((cpTrace res rs ls).1.any isUpScript) = false := by
  induction ls with
  | nil => intro rs; rfl
  | cons l ls ih =>
    intro rs
    rw [cpTrace]
    simp only [List.any_cons]
    rw [show isUpScript (Event.write res (some { rs with checkpoint := some l })) =
      false from rfl]
    rw [Bool.false_or]
    exact ih _

/-- The up-to-date branch runs no script at all. -/
theorem up_resource_no_trigger_no_scripts (a : UpArgs)
    (h : upTrigger a = false) : hasScript (up_resource a).1 = false := by
  rw [up_resource]
  rw [if_neg (by simp [h])]
  cases check_products a.resName a.declaredExports a.declaredMementos
      ((upRs0 a).exports.getD []) ((upRs0 a).mementos.getD []) with
  | error e => rfl
  | ok u =>
    by_cases hm : upMetaSame a = true
    · simp [hm, hasScript]
    · simp only [Bool.not_eq_true] at hm
      simp [hm, hasScript, isScript]

/-- Any triggered run that is not aborted by the step confirmation, the
identity-change teardown or the precheck executes the up action. -/
theorem up_resource_trigger_has_up (a : UpArgs)
    (htrig : upTrigger a = true)
    (hstep : a.step = false)
    (hdok : a.oracle.downIdentExit = true)
    (hpre : a.oracle.precheckExit = true) :
    hasUpScript (up_resource a).1 = true := by
  rw [up_resource]
  rw [if_pos (by simp [htrig])]
  rw [if_neg (by simp [hstep])]
  rw [if_neg (by simp [hdok])]
  rw [if_neg (by simp [hpre])]
  have hup3 : (upEv3 a).any isUpScript = true := by
    simp [upEv3, isUpScript]
  by_cases hux : a.oracle.upExit = true
  · rw [if_neg (by simp [hux])]
    cases check_products a.resName a.declaredExports a.declaredMementos
        a.oracle.exportsProduced a.oracle.mementosProduced with
    | error e =>
      simp only [hasUpScript, List.any_append]
      rw [hup3]
      simp
    | ok u =>
      simp only [hasUpScript, List.any_append]
      rw [hup3]
      simp
  · simp only [Bool.not_eq_true] at hux
    rw [if_pos (by simp [hux])]
    simp only [hasUpScript, List.any_append]
    rw [hup3]
    simp

/-- Every up script in a triggered run's trace is an up script: the trace
never contains one on the up-to-date branch, so trace inspection recovers the
trigger condition. -/
theorem up_resource_up_implies_trigger (a : UpArgs)
    (h : hasUpScript (up_resource a).1 = true) : upTrigger a = true := by
  by_contra hno
  simp only [Bool.not_eq_true] at hno
  have := up_resource_no_trigger_no_scripts a hno
  rw [hasScript] at this
  rw [hasUpScript] at h
  have hmono : (up_resource a).1.any isUpScript = true →
      (up_resource a).1.any isScript = true := by
    intro hx
    rcases List.any_eq_true.mp hx with ⟨e, he, hee⟩
    apply List.any_eq_true.mpr
    refine ⟨e, he, ?_⟩
    cases e with
    | write n r => simp [isUpScript] at hee
    | script k d => rfl
  rw [hmono h] at this
  cases this

/-- Claim C4: with the run not aborted en route (no step prompt, the
identity-change teardown and precheck succeeding), the up action script is
executed if and only if the trigger condition of line 508 holds: forced full
run, stored dirty flag (or no stored state), `always_refresh`, or a changed
`common`+`up` rendering; and when the trigger is false no script runs at
all. -/
theorem c4_up_trigger (a : UpArgs)
    (hstep : a.step = false)
    (hdok : a.oracle.downIdentExit = true)
    (hpre : a.oracle.precheckExit = true) :
    hasUpScript (up_resource a).1 = upTrigger a ∧
    (upTrigger a = false → hasScript (up_resource a).1 = false) := by
  constructor
  · by_cases htrig : upTrigger a = true
    · rw [htrig]
      exact up_resource_trigger_has_up a htrig hstep hdok hpre
    · simp only [Bool.not_eq_true] at htrig
      rw [htrig]
      by_contra hne
      have hx : hasUpScript (up_resource a).1 = true := by
        cases hh : hasUpScript (up_resource a).1 with
        | true => rfl
        | false => rw [hh] at hne; exact absurd rfl hne
      rw [up_resource_up_implies_trigger a hx] at htrig
      cases htrig
  · intro h
    exact up_resource_no_trigger_no_scripts a h

/-- Witness instance for `c4_up_trigger`: a new resource (no stored state)
with benign oracles. -/
def c4wit : UpArgs where
  step := false
  full := false
  ignore_identity_change := false
  ignore_checkpoints := false
  ignore_precheck := true
  resName := "r"
  alwaysRefresh := false
  declaredExports := []
  declaredMementos := []
  newTags := []
  newDeps := []
  usedModes := []
  newFiles := emptyBags
  prior := none
  oracle :=
    { stepOk := true
      downIdentExit := true
      downIdentConfirm := false
      precheckExit := true
      upExit := true
      cpLines := []
      exportsProduced := []
      mementosProduced := []
      mementosModes := []
      istateAfter := none
      messageFile := none }

theorem c4_witness :
    c4wit.step = false ∧ hasUpScript (up_resource c4wit).1 = upTrigger c4wit :=
  ⟨rfl, (c4_up_trigger c4wit rfl rfl rfl).1⟩

/-! ## Crash-safe dirty marking

`dirtyBeforeB cur trace` scans a trace keeping the most recently persisted
state entry (`cur`); at every up or down script execution it demands that a
write has happened and that the persisted entry is dirty — and for the up
action additionally that it holds no exports. -/

def dirtyBeforeB : Option (Option ResState) → List Event → Bool
  | _, [] => true
  | _, Event.write _ r :: rest => dirtyBeforeB (some r) rest
  | cur, Event.script k _ :: rest =>
    (if k == "up" || k == "down" then
        match cur with
        | some (some rs) =>
          (rs.dirty == some true) && (!(k == "up") || rs.exports == none)
        | _ => false
      else true) && dirtyBeforeB cur rest

/-- The last persisted entry after a trace segment. -/
def lastW : Option (Option ResState) → List Event → Option (Option ResState)
  | cur, [] => cur
  | _, Event.write _ r :: rest => lastW (some r) rest
  | cur, Event.script _ _ :: rest => lastW cur rest

theorem dirtyBeforeB_append (l1 : List Event) :
    ∀ (cur : Option (Option ResState)) (l2 : List Event),
    dirtyBeforeB cur (l1 ++ l2) =
      (dirtyBeforeB cur l1 && dirtyBeforeB (lastW cur l1) l2) := by
  induction l1 with
  | nil => intro cur l2; simp [dirtyBeforeB, lastW]
  | cons e rest ih =>
    intro cur l2
    cases e with
    | write n r =>
      simp only [List.cons_append, dirtyBeforeB, lastW]
      exact ih _ l2
    | script k d =>
      simp only [List.cons_append, dirtyBeforeB, lastW, List.append_eq]
      rw [ih _ l2]
      rw [Bool.and_assoc]

theorem dirtyBeforeB_cpTrace (res : String) (ls : List String) :
    ∀ (rs : ResState) (cur : Option (Option ResState)),
    dirtyBeforeB cur (cpTrace res rs ls).1 = true := by
  induction ls with
  | nil => intro rs cur; rfl
  | cons l ls ih =>
    intro rs cur
    rw [cpTrace]
    exact ih _ _

theorem dirtyBeforeB_upEv1 (a : UpArgs) (cur : Option (Option ResState)) :
    dirtyBeforeB cur (upEv1 a) = true := by
  rw [upEv1]
  split
  · have h1 : (("down" : String) == "up") = false := by decide
    have h2 : (("down" : String) == "down") = true := by decide
    have h3 : (upRs1 a).dirty = some true := rfl
    simp [dirtyBeforeB, h1, h2, h3]
  · rfl

theorem dirtyBeforeB_upEv2 (a : UpArgs) (cur : Option (Option ResState)) :
    dirtyBeforeB cur (upEv2 a) = true := by
  rw [upEv2]
  split
  · have h1 : (("precheck" : String) == "up") = false := by decide
    have h2 : (("precheck" : String) == "down") = false := by decide
    simp [dirtyBeforeB, h1, h2]
  · rfl

theorem dirtyBeforeB_upEv3 (a : UpArgs) (cur : Option (Option ResState)) :
    dirtyBeforeB cur (upEv3 a) = true := by
  have h1 : (("up" : String) == "up") = true := by decide
  have h2 : (upRs3 a).dirty = some true := rfl
  have h3 : (upRs3 a).exports = none := rfl
  simp [upEv3, dirtyBeforeB, h1, h2, h3]

theorem dirtyBeforeB_single_write (cur : Option (Option ResState))
    (n : String) (r : Option ResState) :
    dirtyBeforeB cur [Event.write n r] = true := rfl

/-- Claim C7: in every `up_resource` and `down_resource` trace, whenever an
up or down action script executes, the most recent persisted write before it
records the resource as dirty, and before the up action it also records no
stored exports; no such script ever runs with the persisted record clean. -/
theorem dirtyBeforeB_upCps (a : UpArgs) (cur : Option (Option ResState)) :
    dirtyBeforeB cur (upCps a).1 = true := by
  rw [upCps]
  exact dirtyBeforeB_cpTrace _ _ _ _

/-- Claim C7: in every `up_resource` and `down_resource` trace, whenever an
up or down action script executes, the most recent persisted write before it
records the resource as dirty, and before the up action it also records no
stored exports; no such script ever runs with the persisted record clean. -/
theorem c7_crash_safe_dirty (a : UpArgs) (d : DownArgs) :
    dirtyBeforeB none (up_resource a).1 = true ∧
    dirtyBeforeB none (down_resource d).1 = true := by
  constructor
  · rw [up_resource]
    by_cases htrig : upTrigger a = true
    · rw [if_pos htrig]
      by_cases hstep : (a.step && !a.oracle.stepOk) = true
      · rw [if_pos hstep]
        rfl
      · rw [if_neg hstep]
        by_cases hidf : (upIdentityChanged a &&
            !(a.oracle.downIdentExit || a.oracle.downIdentConfirm)) = true
        · rw [if_pos hidf]
          exact dirtyBeforeB_upEv1 a none
        · rw [if_neg hidf]
          by_cases hpf : (upPrecheckNeeded a && !a.oracle.precheckExit) = true
          · rw [if_pos hpf]
            rw [dirtyBeforeB_append]
            rw [dirtyBeforeB_upEv1 a none]
            rw [dirtyBeforeB_upEv2 a _]
            rfl
          · rw [if_neg hpf]
            have hmain : dirtyBeforeB none
                (upEv1 a ++ upEv2 a ++ upEv3 a ++ (upCps a).1) = true := by
              rw [dirtyBeforeB_append, dirtyBeforeB_append, dirtyBeforeB_append]
              rw [dirtyBeforeB_upEv1 a none]
              rw [dirtyBeforeB_upEv2 a _]
              rw [dirtyBeforeB_upEv3 a _]
              rw [dirtyBeforeB_upCps a _]
              rfl
            by_cases hux : (!a.oracle.upExit) = true
            · rw [if_pos hux]
              exact hmain
            · rw [if_neg hux]
              cases check_products a.resName a.declaredExports a.declaredMementos
                  a.oracle.exportsProduced a.oracle.mementosProduced with
              | error e => exact hmain
              | ok u =>
                rw [dirtyBeforeB_append]
                rw [hmain]
                rw [dirtyBeforeB_single_write]
                rfl
    · rw [if_neg htrig]
      cases check_products a.resName a.declaredExports a.declaredMementos
          ((upRs0 a).exports.getD []) ((upRs0 a).mementos.getD []) with
      | error e => rfl
      | ok u =>
        by_cases hm : upMetaSame a = true
        · rw [if_pos hm]
          rfl
        · rw [if_neg hm]
          rfl
  · rw [down_resource]
    by_cases hstep : (d.step && !d.stepOk) = true
    · rw [if_pos hstep]
      rfl
    · rw [if_neg hstep]
      have h1 : (("down" : String) == "up") = false := by decide
      have h2 : (("down" : String) == "down") = true := by decide
      by_cases hdf : (!(d.downExit || d.downConfirm)) = true
      · rw [if_pos hdf]
        simp [dirtyBeforeB, h1, h2]
      · rw [if_neg hdf]
        rw [dirtyBeforeB_append]
        simp [dirtyBeforeB, h1, h2, lastW]

/-! ## Identity change and checkpoint resume -/

theorem dictBeq_false_of_lookup_ne {a b : List (String × String)} {k : String}
    (h : a.lookup k ≠ b.lookup k) : dictBeq a b = false := by
  cases hd : dictBeq a b with
  | false => rfl
  | true => exact absurd (dictBeq_lookup_eq hd k) h

theorem upTrigger_of_identity_ne {a : UpArgs}
    (h : (upNewUC a).lookup "identity" ≠ (upOldUC a).lookup "identity") :
    upTrigger a = true := by
  rw [upTrigger]
  rw [dictBeq_false_of_lookup_ne h]
  simp

/-- Claim C6: for a pre-existing resource with the identity check enabled and
a changed rendered `identity` value, and a run not otherwise aborted, the
scripts executed are exactly the down action on the stored `common`+`down`
files followed by the up action — the teardown always completes before the up
action starts. -/
theorem c6_identity_change (a : UpArgs) (rs : ResState)
    (hprior : a.prior = some rs)
    (hignore : a.ignore_identity_change = false)
    (hid : (upNewUC a).lookup "identity" ≠ (upOldUC a).lookup "identity")
    (hstep : a.step = false)
    (hdok : (a.oracle.downIdentExit || a.oracle.downIdentConfirm) = true) :
    ((up_resource a).1.filter isScript) =
      [Event.script "down" (upDownDir a), Event.script "up" (upWorkDir a)] := by
  have htrig : upTrigger a = true := upTrigger_of_identity_ne hid
  have hidch : upIdentityChanged a = true := by
    rw [upIdentityChanged, upIsNew, hprior]
    simp only [Option.isNone_some]
    rw [hignore]
    have : ((upNewUC a).lookup "identity" == (upOldUC a).lookup "identity") = false := by
      cases hb : ((upNewUC a).lookup "identity" == (upOldUC a).lookup "identity") with
      | false => rfl
      | true => exact absurd (by simpa using hb) hid
    rw [this]
    rfl
  have hpn : upPrecheckNeeded a = false := by
    rw [upPrecheckNeeded, upIsNew, hprior]
    rfl
  have hfil1 : (upEv1 a).filter isScript = [Event.script "down" (upDownDir a)] := by
    rw [upEv1, if_pos hidch]
    rfl
  have hfil2 : (upEv2 a).filter isScript = [] := by
    rw [upEv2, if_neg (by rw [hpn]; simp)]
    rfl
  have hfil3 : (upEv3 a).filter isScript = [Event.script "up" (upWorkDir a)] := by
    rw [upEv3]
    rfl
  have hfilc : ((upCps a).1.filter isScript) = [] := by
    rw [upCps]
    exact cpTrace_filter_scripts _ _ _
  rw [up_resource, if_pos htrig]
  rw [if_neg (by rw [hstep]; simp)]
  rw [if_neg (by rw [hdok]; simp)]
  rw [if_neg (by rw [hpn]; simp)]
  by_cases hux : (!a.oracle.upExit) = true
  · rw [if_pos hux]
    simp only [List.filter_append, hfil1, hfil2, hfil3, hfilc]
    rfl
  · rw [if_neg hux]
    cases check_products a.resName a.declaredExports a.declaredMementos
        a.oracle.exportsProduced a.oracle.mementosProduced with
    | error e =>
      simp only [List.filter_append, hfil1, hfil2, hfil3, hfilc]
      rfl
    | ok u =>
      simp only [List.filter_append, hfil1, hfil2, hfil3, hfilc]
      rfl

/-- Stored state of the witness resource for `c6_identity_change`. -/
def c6rs : ResState where
  dirty := some false
  files := some ⟨[("identity", "v1")], [("teardown.sh", "x")], [], []⟩
  deps := some []
  tags := some []
  used_modes := some []
  exports := some []
  mementos := some []
  mementos_modes := some []
  istate := none
  checkpoint := none
  message := none

/-- Witness instance for `c6_identity_change`: an existing resource whose
`identity` file changes from `v1` to `v2`. -/
def c6wit : UpArgs where
  step := false
  full := false
  ignore_identity_change := false
  ignore_checkpoints := false
  ignore_precheck := false
  resName := "r"
  alwaysRefresh := false
  declaredExports := []
  declaredMementos := []
  newTags := []
  newDeps := []
  usedModes := []
  newFiles := { up := [("identity", "v2")], down := [], common := [], precheck := [] }
  prior := some c6rs
  oracle :=
    { stepOk := true
      downIdentExit := true
      downIdentConfirm := false
      precheckExit := true
      upExit := true
      cpLines := []
      exportsProduced := []
      mementosProduced := []
      mementosModes := []
      istateAfter := none
      messageFile := none }

theorem c6_witness :
    (upNewUC c6wit).lookup "identity" ≠ (upOldUC c6wit).lookup "identity" ∧
    ((up_resource c6wit).1.filter isScript) =
      [Event.script "down" (upDownDir c6wit), Event.script "up" (upWorkDir c6wit)] :=
  ⟨by simp [upNewUC, upOldUC, upOldFiles, upRs0, c6wit, c6rs, add_dicts, List.lookup],
    c6_identity_change c6wit c6rs rfl rfl
      (by simp [upNewUC, upOldUC, upOldFiles, upRs0, c6wit, c6rs, add_dicts, List.lookup])
      rfl rfl⟩

/-- Claim C8: for a triggered resource with a stored checkpoint and the
ignore-checkpoints flag unset (and the run not otherwise aborted), the up
action starts with a `last-checkpoint` file holding exactly the stored value
in its working directory, and the state written immediately before the action
has the checkpoint entry removed. -/
theorem c8_checkpoint (a : UpArgs) (rs : ResState) (v : String)
    (hprior : a.prior = some rs)
    (hcp : rs.checkpoint = some v)
    (hic : a.ignore_checkpoints = false)
    (htrig : upTrigger a = true)
    (hstep : a.step = false)
    (hdok : (a.oracle.downIdentExit || a.oracle.downIdentConfirm) = true) :
    ∃ pre post, (up_resource a).1 =
      pre ++ [Event.write a.resName (some (upRs3 a)),
        Event.script "up" (upWorkDir a)] ++ post ∧
      (upWorkDir a).lookup "last-checkpoint" = some v ∧
      (upRs3 a).checkpoint = none := by
  have hlcp : upLastCp a = some v := by
    rw [upLastCp]
    show (upRs0 a).checkpoint = some v
    rw [upRs0, hprior]
    exact hcp
  have hdir : (upWorkDir a).lookup "last-checkpoint" = some v := by
    rw [upWorkDir, if_pos (by rw [hlcp, hic]; rfl)]
    rw [hlcp]
    rfl
  have hrs3 : (upRs3 a).checkpoint = none := rfl
  have hpn : upPrecheckNeeded a = false := by
    rw [upPrecheckNeeded, upIsNew, hprior]
    rfl
  rw [up_resource, if_pos htrig]
  rw [if_neg (by rw [hstep]; simp)]
  rw [if_neg (by rw [hdok]; simp)]
  rw [if_neg (by rw [hpn]; simp)]
  by_cases hux : (!a.oracle.upExit) = true
  · rw [if_pos hux]
    exact ⟨upEv1 a ++ upEv2 a, (upCps a).1, by rw [upEv3], hdir, hrs3⟩
  · rw [if_neg hux]
    cases check_products a.resName a.declaredExports a.declaredMementos
        a.oracle.exportsProduced a.oracle.mementosProduced with
    | error e =>
      exact ⟨upEv1 a ++ upEv2 a, (upCps a).1, by rw [upEv3], hdir, hrs3⟩
    | ok u =>
      exact ⟨upEv1 a ++ upEv2 a,
        (upCps a).1 ++ [Event.write a.resName (some (upRs5 a))],
        by rw [upEv3]; simp [List.append_assoc], hdir, hrs3⟩

/-- Stored state of the witness resource for `c8_checkpoint`: dirty, with
checkpoint `step3`. -/
def c8rs : ResState where
  dirty := some true
  files := some emptyBags
  deps := some []
  tags := some []
  used_modes := some []
  exports := none
  mementos := some []
  mementos_modes := some []
  istate := none
  checkpoint := some "step3"
  message := none

/-- Witness instance for `c8_checkpoint`: a dirty stored state with
checkpoint `step3`. -/
def c8wit : UpArgs where
  step := false
  full := false
  ignore_identity_change := true
  ignore_checkpoints := false
  ignore_precheck := false
  resName := "r"
  alwaysRefresh := false
  declaredExports := []
  declaredMementos := []
  newTags := []
  newDeps := []
  usedModes := []
  newFiles := emptyBags
  prior := some c8rs
  oracle :=
    { stepOk := true
      downIdentExit := true
      downIdentConfirm := false
      precheckExit := true
      upExit := true
      cpLines := []
      exportsProduced := []
      mementosProduced := []
      mementosModes := []
      istateAfter := none
      messageFile := none }

theorem c8_witness :
    upTrigger c8wit = true ∧
    ∃ pre post, (up_resource c8wit).1 =
      pre ++ [Event.write c8wit.resName (some (upRs3 c8wit)),
        Event.script "up" (upWorkDir c8wit)] ++ post ∧
      (upWorkDir c8wit).lookup "last-checkpoint" = some "step3" ∧
      (upRs3 c8wit).checkpoint = none :=
  ⟨by decide,
    c8_checkpoint c8wit c8rs "step3" rfl rfl rfl (by decide) rfl rfl⟩

/-! ## Idempotence of the up pass -/

/-- A successful `up_resource` ends in one of three states: the full commit
`upRs5` (triggered path), the untouched prior state (up-to-date, metadata
unchanged) or the metadata-only update `upRs4`. -/
theorem up_resource_ok_state (a : UpArgs) (st : ResState)
    (vars : List (String × String)) (msg : Option String)
    (h : (up_resource a).2 = .ok (st, vars, msg)) :
    st = upRs5 a ∨ (upTrigger a = false ∧ (st = upRs0 a ∨ st = upRs4 a)) := by
  rw [up_resource] at h
  by_cases htrig : upTrigger a = true
  · rw [if_pos htrig] at h
    left
    by_cases hstep : (a.step && !a.oracle.stepOk) = true
    · rw [if_pos hstep] at h
      cases h
    · rw [if_neg hstep] at h
      by_cases hidf : (upIdentityChanged a &&
          !(a.oracle.downIdentExit || a.oracle.downIdentConfirm)) = true
      · rw [if_pos hidf] at h
        cases h
      · rw [if_neg hidf] at h
        by_cases hpf : (upPrecheckNeeded a && !a.oracle.precheckExit) = true
        · rw [if_pos hpf] at h
          cases h
        · rw [if_neg hpf] at h
          by_cases hux : (!a.oracle.upExit) = true
          · rw [if_pos hux] at h
            cases h
          · rw [if_neg hux] at h
            cases hcp : check_products a.resName a.declaredExports
                a.declaredMementos a.oracle.exportsProduced
                a.oracle.mementosProduced with
            | error e =>
              rw [hcp] at h
              cases h
            | ok u =>
              rw [hcp] at h
              simp only [Except.ok.injEq, Prod.mk.injEq] at h
              exact h.1.symm
  · rw [if_neg htrig] at h
    right
    refine ⟨by simpa using htrig, ?_⟩
    cases hcp : check_products a.resName a.declaredExports a.declaredMementos
        ((upRs0 a).exports.getD []) ((upRs0 a).mementos.getD []) with
    | error e =>
      rw [hcp] at h
      cases h
    | ok u =>
      rw [hcp] at h
      by_cases hm : upMetaSame a = true
      · rw [if_pos hm] at h
        simp only [Except.ok.injEq, Prod.mk.injEq] at h
        exact Or.inl h.1.symm
      · rw [if_neg hm] at h
        simp only [Except.ok.injEq, Prod.mk.injEq] at h
        exact Or.inr h.1.symm

/-- The second run of the same resource: same model data and renders, no
`--full`, prior state as left by the first run, fresh oracle. -/
def secondRun (a : UpArgs) (st : ResState) (o2 : ScriptOracle) : UpArgs :=
  { a with
      full := false
      prior := some st
      oracle := o2 }

theorem upRs5_files (a : UpArgs) : (upRs5 a).files = some a.newFiles := by
  show (upCps a).2.files = some a.newFiles
  rw [upCps, cpTrace_files]
  rfl

/-- Claim C2 (amended): after a successful up pass, a second pass with the
same rendered contents and no full flag is a no-op for every resource that is
not marked `always_refresh`: the trigger is false and no script runs. -/
theorem c2_idempotent (a : UpArgs) (st : ResState)
    (vars : List (String × String)) (msg : Option String)
    (h : (up_resource a).2 = .ok (st, vars, msg))
    (har : a.alwaysRefresh = false)
    (hnodup : ((upNewUC a).map Prod.fst).Nodup)
    (o2 : ScriptOracle) :
    upTrigger (secondRun a st o2) = false ∧
    hasScript (up_resource (secondRun a st o2)).1 = false := by
  have key : st.dirty = some false ∧
      dictBeq (upNewUC a) (add_dicts (st.files.getD emptyBags).common
        (st.files.getD emptyBags).up) = true := by
    rcases up_resource_ok_state a st vars msg h with h5 | ⟨hnt, h04⟩
    · subst h5
      constructor
      · rfl
      · rw [upRs5_files a]
        exact dictBeq_refl hnodup
    · have hdirty : upDirtyFlag a = false := by
        rw [upTrigger] at hnt
        simp only [Bool.or_eq_false_iff] at hnt
        exact hnt.1.1.2
      have hbeq : dictBeq (upNewUC a) (upOldUC a) = true := by
        rw [upTrigger] at hnt
        simp only [Bool.or_eq_false_iff] at hnt
        have := hnt.2
        simp only [Bool.not_eq_false'] at this
        exact this
      have hdirty0 : (upRs0 a).dirty = some false := by
        rw [upDirtyFlag] at hdirty
        cases hd : (upRs0 a).dirty with
        | none => rw [hd] at hdirty; simp at hdirty
        | some b =>
          rw [hd] at hdirty
          simp at hdirty
          rw [hdirty]
      rcases h04 with h0 | h4
      · subst h0
        exact ⟨hdirty0, hbeq⟩
      · subst h4
        constructor
        · exact hdirty0
        · show dictBeq (upNewUC a) (add_dicts ((some a.newFiles).getD
            emptyBags).common ((some a.newFiles).getD emptyBags).up) = true
          exact dictBeq_refl hnodup
  have htrig2 : upTrigger (secondRun a st o2) = false := by
    rw [upTrigger]
    have h1 : (secondRun a st o2).full = false := rfl
    have h2 : upDirtyFlag (secondRun a st o2) = false := by
      rw [upDirtyFlag, upRs0]
      show (st.dirty).getD true = false
      rw [key.1]
      rfl
    have h3 : (secondRun a st o2).alwaysRefresh = false := har
    have h4 : dictBeq (upNewUC (secondRun a st o2))
        (upOldUC (secondRun a st o2)) = true := by
      show dictBeq (upNewUC a) (add_dicts (st.files.getD emptyBags).common
        (st.files.getD emptyBags).up) = true
      exact key.2
    rw [h1, h2, h3, h4]
    rfl
  exact ⟨htrig2, up_resource_no_trigger_no_scripts _ htrig2⟩

/-- First-run input refuting claim C2 as frozen: a fresh resource marked
`always_refresh`, with benign oracles. -/
def c2cexFirst : UpArgs where
  step := false
  full := false
  ignore_identity_change := false
  ignore_checkpoints := false
  ignore_precheck := true
  resName := "r"
  alwaysRefresh := true
  declaredExports := []
  declaredMementos := []
  newTags := []
  newDeps := []
  usedModes := []
  newFiles := emptyBags
  prior := none
  oracle :=
    { stepOk := true
      downIdentExit := true
      downIdentConfirm := false
      precheckExit := true
      upExit := true
      cpLines := []
      exportsProduced := []
      mementosProduced := []
      mementosModes := []
      istateAfter := none
      messageFile := none }

/-- The state left behind by a successful first run of `c2cexFirst`. -/
def c2st : ResState where
  dirty := some false
  files := some emptyBags
  deps := some []
  tags := some []
  used_modes := some []
  exports := some []
  mementos := some []
  mementos_modes := some []
  istate := none
  checkpoint := none
  message := none

/-- Counterexample to claim C2 as frozen: after a successful first pass the
second pass with the same model and renders and no full flag still executes
the up action, because the resource is marked `always_refresh`. -/
theorem c2_counterexample :
    (up_resource c2cexFirst).2 = .ok (c2st, [], none) ∧
    (secondRun c2cexFirst c2st c2cexFirst.oracle).full = false ∧
    upDirtyFlag (secondRun c2cexFirst c2st c2cexFirst.oracle) = false ∧
    hasUpScript (up_resource (secondRun c2cexFirst c2st c2cexFirst.oracle)).1 = true :=
  ⟨by rfl, rfl, by rfl, by rfl⟩

/-- Witness first-run input for `c2_idempotent`: as `c2cexFirst` but without
`always_refresh`. -/
def c2wit : UpArgs where
  step := false
  full := false
  ignore_identity_change := false
  ignore_checkpoints := false
  ignore_precheck := true
  resName := "r"
  alwaysRefresh := false
  declaredExports := []
  declaredMementos := []
  newTags := []
  newDeps := []
  usedModes := []
  newFiles := emptyBags
  prior := none
  oracle :=
    { stepOk := true
      downIdentExit := true
      downIdentConfirm := false
      precheckExit := true
      upExit := true
      cpLines := []
      exportsProduced := []
      mementosProduced := []
      mementosModes := []
      istateAfter := none
      messageFile := none }

theorem c2_witness :
    (up_resource c2wit).2 = .ok (c2st, [], none) ∧
    upTrigger (secondRun c2wit c2st c2wit.oracle) = false :=
  ⟨by rfl,
    (c2_idempotent c2wit c2st [] none (by rfl) rfl (by decide) c2wit.oracle).1⟩

/-! ## The export/memento contract -/

theorem sortStr_eq_nil {l : List String} : sortStr l = [] ↔ l = [] := by
  constructor
  · intro h
    have := sortStr_perm l
    rw [h] at this
    exact this.symm.eq_nil
  · intro h
    rw [h]
    rfl

/-- A successful `up_resource` has passed `check_products` on exactly the
export values it returns. -/
theorem up_resource_ok_check (a : UpArgs) (st : ResState)
    (vars : List (String × String)) (msg : Option String)
    (h : (up_resource a).2 = .ok (st, vars, msg)) :
    ∃ pm, check_products a.resName a.declaredExports a.declaredMementos
      vars pm = .ok () := by
  rw [up_resource] at h
  by_cases htrig : upTrigger a = true
  · rw [if_pos htrig] at h
    by_cases hstep : (a.step && !a.oracle.stepOk) = true
    · rw [if_pos hstep] at h
      cases h
    · rw [if_neg hstep] at h
      by_cases hidf : (upIdentityChanged a &&
          !(a.oracle.downIdentExit || a.oracle.downIdentConfirm)) = true
      · rw [if_pos hidf] at h
        cases h
      · rw [if_neg hidf] at h
        by_cases hpf : (upPrecheckNeeded a && !a.oracle.precheckExit) = true
        · rw [if_pos hpf] at h
          cases h
        · rw [if_neg hpf] at h
          by_cases hux : (!a.oracle.upExit) = true
          · rw [if_pos hux] at h
            cases h
          · rw [if_neg hux] at h
            cases hcp : check_products a.resName a.declaredExports
                a.declaredMementos a.oracle.exportsProduced
                a.oracle.mementosProduced with
            | error e =>
              rw [hcp] at h
              cases h
            | ok u =>
              rw [hcp] at h
              simp only [Except.ok.injEq, Prod.mk.injEq] at h
              rw [← h.2.1]
              exact ⟨a.oracle.mementosProduced, hcp⟩
  · rw [if_neg htrig] at h
    cases hcp : check_products a.resName a.declaredExports a.declaredMementos
        ((upRs0 a).exports.getD []) ((upRs0 a).mementos.getD []) with
    | error e =>
      rw [hcp] at h
      cases h
    | ok u =>
      rw [hcp] at h
      by_cases hm : upMetaSame a = true
      · rw [if_pos hm] at h
        simp only [Except.ok.injEq, Prod.mk.injEq] at h
        rw [← h.2.1]
        exact ⟨(upRs0 a).mementos.getD [], hcp⟩
      · rw [if_neg hm] at h
        simp only [Except.ok.injEq, Prod.mk.injEq] at h
        rw [← h.2.1]
        exact ⟨(upRs0 a).mementos.getD [], hcp⟩

/-- Claim C5: the export/memento check succeeds exactly when the produced
names equal the declared sets (no declared name missing, no undeclared name
produced); a failure names the resource and either a specific missing
declared name or the undeclared names produced; and every successful
`up_resource` outcome satisfies the export contract. -/
theorem c5_export_memento_contract :
    (∀ (res : String) (declE declM : List String)
        (prodE prodM : List (String × String)),
      (check_products res declE declM prodE prodM = .ok ()) ↔
        ((∀ x ∈ declE, (prodE.lookup x).isSome) ∧
         (∀ p ∈ prodE, p.1 ∈ declE) ∧
         (∀ x ∈ declM, (prodM.lookup x).isSome) ∧
         (∀ p ∈ prodM, p.1 ∈ declM))) ∧
    (∀ (res : String) (declE declM : List String)
        (prodE prodM : List (String × String)) (e : CliError),
      check_products res declE declM prodE prodM = .error e →
        (∃ kind x, e = .missingProduct res kind x ∧
          ((kind = "variable" ∧ x ∈ declE ∧ prodE.lookup x = none) ∨
           (kind = "memento" ∧ x ∈ declM ∧ prodM.lookup x = none))) ∨
        (∃ kind names, e = .unexpectedProduct res kind names ∧ names ≠ [] ∧
          ((kind = "variable" ∧ ∀ n ∈ names, n ∈ prodE.map Prod.fst ∧ n ∉ declE) ∨
           (kind = "memento" ∧ ∀ n ∈ names, n ∈ prodM.map Prod.fst ∧ n ∉ declM)))) ∧
    (∀ (a : UpArgs) (st : ResState) (vars : List (String × String))
        (msg : Option String), (up_resource a).2 = .ok (st, vars, msg) →
      (∀ x ∈ a.declaredExports, (vars.lookup x).isSome) ∧
      (∀ p ∈ vars, p.1 ∈ a.declaredExports)) := by
  have hmemsort : ∀ (prod : List (String × String)) (decl : List String)
      (n : String),
      n ∈ sortStr (((prod.map Prod.fst).filter
        (fun x => decide (x ∉ decl))).dedup) ↔
      (n ∈ prod.map Prod.fst ∧ n ∉ decl) := by
    intro prod decl n
    rw [mem_sortStr, List.mem_dedup, List.mem_filter]
    simp
  have hpart1 : ∀ (res : String) (declE declM : List String)
      (prodE prodM : List (String × String)),
      (check_products res declE declM prodE prodM = .ok ()) ↔
        ((∀ x ∈ declE, (prodE.lookup x).isSome) ∧
         (∀ p ∈ prodE, p.1 ∈ declE) ∧
         (∀ x ∈ declM, (prodM.lookup x).isSome) ∧
         (∀ p ∈ prodM, p.1 ∈ declM)) := by
    intro res declE declM prodE prodM
    rw [check_products]
    cases hfE : declE.find? (fun x => (prodE.lookup x).isNone) with
    | some x =>
      simp only [false_iff]
      constructor
      · intro hc
        cases hc
      · intro hc
        have hx1 := List.find?_some hfE
        have hx2 := List.mem_of_find?_eq_some hfE
        have := hc.1 x hx2
        rw [Option.isNone_iff_eq_none] at hx1
        rw [hx1] at this
        cases this
    | none =>
      have hEall : ∀ x ∈ declE, (prodE.lookup x).isSome := by
        intro x hx
        have := List.find?_eq_none.mp hfE x hx
        simp only [Bool.not_eq_true, Option.isNone_eq_false_iff] at this
        exact this
      by_cases hue : (sortStr (((prodE.map Prod.fst).filter
          (fun x => decide (x ∉ declE))).dedup)).isEmpty = true
      · rw [if_neg (by rw [hue]; decide)]
        cases hfM : declM.find? (fun x => (prodM.lookup x).isNone) with
        | some x =>
          simp only [false_iff]
          constructor
          · intro hc
            cases hc
          · intro hc
            have hx1 := List.find?_some hfM
            have hx2 := List.mem_of_find?_eq_some hfM
            have := hc.2.2.1 x hx2
            rw [Option.isNone_iff_eq_none] at hx1
            rw [hx1] at this
            cases this
        | none =>
          have hMall : ∀ x ∈ declM, (prodM.lookup x).isSome := by
            intro x hx
            have := List.find?_eq_none.mp hfM x hx
            simp only [Bool.not_eq_true, Option.isNone_eq_false_iff] at this
            exact this
          by_cases hum : (sortStr (((prodM.map Prod.fst).filter
              (fun x => decide (x ∉ declM))).dedup)).isEmpty = true
          · rw [if_neg (by rw [hum]; decide)]
            simp only [true_iff]
            rw [List.isEmpty_iff] at hue hum
            refine ⟨hEall, ?_, hMall, ?_⟩
            · intro p hp
              by_contra hnd
              have : p.1 ∈ ([] : List String) := by
                rw [← hue]
                exact (hmemsort prodE declE p.1).mpr
                  ⟨List.mem_map.mpr ⟨p, hp, rfl⟩, hnd⟩
              simp at this
            · intro p hp
              by_contra hnd
              have : p.1 ∈ ([] : List String) := by
                rw [← hum]
                exact (hmemsort prodM declM p.1).mpr
                  ⟨List.mem_map.mpr ⟨p, hp, rfl⟩, hnd⟩
              simp at this
          · have hum' : (sortStr (((prodM.map Prod.fst).filter
                (fun x => decide (x ∉ declM))).dedup)).isEmpty = false := by
              simpa using hum
            rw [if_pos (by rw [hum']; rfl)]
            constructor
            · intro hc
              cases hc
            · intro hc
              exfalso
              have hnn : sortStr (((prodM.map Prod.fst).filter
                  (fun x => decide (x ∉ declM))).dedup) ≠ [] := by
                intro hx
                rw [hx] at hum'
                simp at hum'
              rcases List.exists_mem_of_ne_nil _ hnn with ⟨n, hn⟩
              have hmem := (hmemsort prodM declM n).mp hn
              rcases List.mem_map.mp hmem.1 with ⟨p, hp, rfl⟩
              exact hmem.2 (hc.2.2.2 p hp)
      · have hue' : (sortStr (((prodE.map Prod.fst).filter
            (fun x => decide (x ∉ declE))).dedup)).isEmpty = false := by
          simpa using hue
        rw [if_pos (by rw [hue']; rfl)]
        constructor
        · intro hc
          cases hc
        · intro hc
          exfalso
          have hnn : sortStr (((prodE.map Prod.fst).filter
              (fun x => decide (x ∉ declE))).dedup) ≠ [] := by
            intro hx
            rw [hx] at hue'
            simp at hue'
          rcases List.exists_mem_of_ne_nil _ hnn with ⟨n, hn⟩
          have hmem := (hmemsort prodE declE n).mp hn
          rcases List.mem_map.mp hmem.1 with ⟨p, hp, rfl⟩
          exact hmem.2 (hc.2.1 p hp)
  refine ⟨hpart1, ?_, ?_⟩
  · intro res declE declM prodE prodM e herr
    rw [check_products] at herr
    cases hfE : declE.find? (fun x => (prodE.lookup x).isNone) with
    | some x =>
      rw [hfE] at herr
      cases herr
      left
      refine ⟨"variable", x, rfl, Or.inl ⟨rfl, List.mem_of_find?_eq_some hfE, ?_⟩⟩
      have := List.find?_some hfE
      rwa [Option.isNone_iff_eq_none] at this
    | none =>
      rw [hfE] at herr
      by_cases hue : (sortStr (((prodE.map Prod.fst).filter
          (fun x => decide (x ∉ declE))).dedup)).isEmpty = true
      · rw [if_neg (by rw [hue]; decide)] at herr
        cases hfM : declM.find? (fun x => (prodM.lookup x).isNone) with
        | some x =>
          rw [hfM] at herr
          cases herr
          left
          refine ⟨"memento", x, rfl, Or.inr ⟨rfl, List.mem_of_find?_eq_some hfM, ?_⟩⟩
          have := List.find?_some hfM
          rwa [Option.isNone_iff_eq_none] at this
        | none =>
          rw [hfM] at herr
          by_cases hum : (sortStr (((prodM.map Prod.fst).filter
              (fun x => decide (x ∉ declM))).dedup)).isEmpty = true
          · rw [if_neg (by rw [hum]; decide)] at herr
            cases herr
          · have hum' : (sortStr (((prodM.map Prod.fst).filter
                (fun x => decide (x ∉ declM))).dedup)).isEmpty = false := by
              simpa using hum
            rw [if_pos (by rw [hum']; rfl)] at herr
            cases herr
            right
            refine ⟨"memento", _, rfl, ?_, Or.inr ⟨rfl, ?_⟩⟩
            · intro hx
              rw [hx] at hum'
              simp at hum'
            · intro n hn
              exact (hmemsort prodM declM n).mp hn
      · have hue' : (sortStr (((prodE.map Prod.fst).filter
            (fun x => decide (x ∉ declE))).dedup)).isEmpty = false := by
          simpa using hue
        rw [if_pos (by rw [hue']; rfl)] at herr
        cases herr
        right
        refine ⟨"variable", _, rfl, ?_, Or.inl ⟨rfl, ?_⟩⟩
        · intro hx
          rw [hx] at hue'
          simp at hue'
        · intro n hn
          exact (hmemsort prodE declE n).mp hn
  · intro a st vars msg h
    rcases up_resource_ok_check a st vars msg h with ⟨pm, hcp⟩
    have := (hpart1 a.resName a.declaredExports a.declaredMementos vars pm).mp hcp
    exact ⟨this.1, this.2.1⟩

/-- Witness instance for `c5_export_memento_contract`: a resource declaring
exports `x`, `y` but producing only `x` fails naming `y`; producing an
undeclared `z` fails naming `z`. -/
theorem c5_witness :
    check_products "r" ["x", "y"] [] [("x", "1")] [] =
      .error (.missingProduct "r" "variable" "y") ∧
    check_products "r" ["x"] [] [("x", "1"), ("z", "2")] [] =
      .error (.unexpectedProduct "r" "variable" ["z"]) ∧
    (check_products "r" ["x"] [] [("x", "1")] [] = .ok ()) :=
  ⟨by rfl, by rfl,
    (c5_export_memento_contract.1 "r" ["x"] [] [("x", "1")] []).mpr
      (by decide)⟩
/-! ## Bag registration (`Resource.file` in `model.py`)

Destination paths are lists of path parts (`dest.parts`); the registration
state carries, per bag, the set of registered file paths and the set of path
parts known to be directories.  The rendered source value is immaterial for
the collision logic and is omitted.  (The `assert not dest.is_absolute()`
check has no counterpart because the parts representation is always
relative.) -/

inductive Bag where
  | up
  | down
  | common
  deriving DecidableEq

/-- `FILE_BAGS` from `model.py`. -/
def FILE_BAGS : List Bag := [Bag.up, Bag.down, Bag.common]

/-- The bags inspected while registering into `bag`:
`FILE_BAGS if bag == 'common' else (bag, 'common')`. -/
def checkBags (bag : Bag) : List Bag :=
  if bag = Bag.common then FILE_BAGS else [bag, Bag.common]

/-- Per-resource registration state: `self.data.files` and `self.data._dirs`
keyed by bag. -/
structure RegState where
  filesUp : Finset (List String) := ∅
  filesDown : Finset (List String) := ∅
  filesCommon : Finset (List String) := ∅
  dirsUp : Finset (List String) := ∅
  dirsDown : Finset (List String) := ∅
  dirsCommon : Finset (List String) := ∅
  deriving DecidableEq

def emptyRegState : RegState := {}

def RegState.filesOf (st : RegState) : Bag → Finset (List String)
  | Bag.up => st.filesUp
  | Bag.down => st.filesDown
  | Bag.common => st.filesCommon

def RegState.dirsOf (st : RegState) : Bag → Finset (List String)
  | Bag.up => st.dirsUp
  | Bag.down => st.dirsDown
  | Bag.common => st.dirsCommon

def updFiles (st : RegState) (b : Bag)
    (f : Finset (List String) → Finset (List String)) : RegState :=
  match b with
  | Bag.up => { st with filesUp := f st.filesUp }
  | Bag.down => { st with filesDown := f st.filesDown }
  | Bag.common => { st with filesCommon := f st.filesCommon }

def updDirs (st : RegState) (b : Bag)
    (f : Finset (List String) → Finset (List String)) : RegState :=
  match b with
  | Bag.up => { st with dirsUp := f st.dirsUp }
  | Bag.down => { st with dirsDown := f st.dirsDown }
  | Bag.common => { st with dirsCommon := f st.dirsCommon }

theorem filesOf_updFiles (st : RegState) (b x : Bag) (f) :
    (updFiles st b f).filesOf x =
      if x = b then f (st.filesOf b) else st.filesOf x := by
  cases b <;> cases x <;> simp [updFiles, RegState.filesOf]

theorem dirsOf_updFiles (st : RegState) (b x : Bag) (f) :
    (updFiles st b f).dirsOf x = st.dirsOf x := by
  cases b <;> cases x <;> simp [updFiles, RegState.dirsOf]

theorem filesOf_updDirs (st : RegState) (b x : Bag) (f) :
    (updDirs st b f).filesOf x = st.filesOf x := by
  cases b <;> cases x <;> simp [updDirs, RegState.filesOf]

theorem dirsOf_updDirs (st : RegState) (b x : Bag) (f) :
    (updDirs st b f).dirsOf x =
      if x = b then f (st.dirsOf b) else st.dirsOf x := by
  cases b <;> cases x <;> simp [updDirs, RegState.dirsOf]

/-- The proper ancestors `dest.parts[:k]` for `k in range(1, len(dest.parts))`. -/
def properPre (dest : List String) : List (List String) :=
  (List.range' 1 (dest.length - 1)).map (fun k => dest.take k)

theorem mem_properPre_ne {dest q : List String} (h : q ∈ properPre dest) :
    q ≠ dest := by
  rw [properPre] at h
  rcases List.mem_map.mp h with ⟨k, hk, rfl⟩
  rw [List.mem_range'] at hk
  intro he
  have hlen : (dest.take k).length = k := by
    rw [List.length_take]
    omega
  rw [he] at hlen
  omega

/-- The `for prefix_len in range(1, len(dest.parts))` loop body for one
checked bag: fail on an ancestor registered as a file, else record it as a
directory; at the end pop `dest` from that bag's files. -/
def regAncestors (cb : Bag) (dest : List String) :
    List (List String) → RegState → Except Unit RegState
  | [], st => .ok (updFiles st cb (fun s => s.erase dest))
  | q :: qs, st =>
    if q ∈ st.filesOf cb then .error ()
    else regAncestors cb dest qs (updDirs st cb (fun s => insert q s))

/-- One iteration of the `for check_bag in ...` loop. -/
def regOneBag (cb : Bag) (dest : List String) (st : RegState) :
    Except Unit RegState :=
  if dest ∈ st.dirsOf cb then .error ()
  else regAncestors cb dest (properPre dest) st

def regBags (dest : List String) :
    List Bag → RegState → Except Unit RegState
  | [], st => .ok st
  | cb :: cbs, st =>
    match regOneBag cb dest st with
    | .error e => .error e
    | .ok st2 => regBags dest cbs st2

/-- Embedding of `Resource.file(bag, dest, src)` from `model.py`: the path
assertions, the `identity` placement check, the per-bag directory/file
collision checks with their bookkeeping, and the final registration. -/
def resource_file (st : RegState) (bag : Bag) (dest : List String) :
    Except Unit RegState :=
  if dest.isEmpty then .error ()
  else if dest.contains ".." then .error ()
  else if dest = ["identity"] ∧ ¬(bag = Bag.common ∨ bag = Bag.up) then .error ()
  else
    match regBags dest (checkBags bag) st with
    | .error e => .error e
    | .ok st2 => .ok (updFiles st2 bag (fun s => insert dest s))

/-- States reachable by a sequence of successful registrations. -/
inductive RegReachable : RegState → Prop
  | init : RegReachable emptyRegState
  | step {st st2 : RegState} {bag : Bag} {dest : List String} :
      RegReachable st → resource_file st bag dest = .ok st2 → RegReachable st2

/-- The collision invariants: every proper ancestor of a registered file is
recorded as a directory in all the bags checked for that file's bag, and no
path is simultaneously a `common` file and an `up` or `down` file. -/
def RegInv (st : RegState) : Prop :=
  (∀ b, ∀ p ∈ st.filesOf b, ∀ q ∈ properPre p, ∀ cb ∈ checkBags b,
    q ∈ st.dirsOf cb) ∧
  (∀ p, p ∈ st.filesOf Bag.common →
    p ∉ st.filesOf Bag.up ∧ p ∉ st.filesOf Bag.down)

theorem regAncestors_ok {cb : Bag} {dest : List String} :
    ∀ (qs : List (List String)) (st st2 : RegState),
    regAncestors cb dest qs st = .ok st2 →
    (∀ q ∈ qs, q ∉ st.filesOf cb) ∧
    (∀ x, st2.filesOf x =
      if x = cb then (st.filesOf cb).erase dest else st.filesOf x) ∧
    (∀ x, st2.dirsOf x =
      if x = cb then st.dirsOf cb ∪ qs.toFinset else st.dirsOf x) := by
  intro qs
  induction qs with
  | nil =>
    intro st st2 h
    rw [regAncestors] at h
    cases h
    refine ⟨by simp, ?_, ?_⟩
    · intro x
      rw [filesOf_updFiles]
    · intro x
      rw [dirsOf_updFiles]
      simp only [List.toFinset_nil, Finset.union_empty]
      split <;> rename_i hx
      · rw [hx]
      · rfl
  | cons q qs ih =>
    intro st st2 h
    rw [regAncestors] at h
    split at h
    · cases h
    · next hq =>
      obtain ⟨h1, h2, h3⟩ := ih _ _ h
      refine ⟨?_, ?_, ?_⟩
      · intro q2 hq2
        rcases List.mem_cons.mp hq2 with rfl | hmem
        · exact hq
        · have := h1 q2 hmem
          rwa [filesOf_updDirs] at this
      · intro x
        rw [h2 x]
        split
        · rw [filesOf_updDirs]
        · rw [filesOf_updDirs]
      · intro x
        rw [h3 x]
        split <;> rename_i hx
        · subst hx
          rw [dirsOf_updDirs, if_pos rfl]
          ext y
          simp only [Finset.mem_union, Finset.mem_insert, List.toFinset_cons,
            List.mem_toFinset]
          tauto
        · rw [dirsOf_updDirs, if_neg hx]

theorem regBags_ok {dest : List String} :
    ∀ (cbs : List Bag) (st st2 : RegState),
    regBags dest cbs st = .ok st2 →
    (∀ x, st2.filesOf x =
      if x ∈ cbs then (st.filesOf x).erase dest else st.filesOf x) ∧
    (∀ x, st2.dirsOf x =
      if x ∈ cbs then st.dirsOf x ∪ (properPre dest).toFinset
      else st.dirsOf x) := by
  intro cbs
  induction cbs with
  | nil =>
    intro st st2 h
    rw [regBags] at h
    cases h
    exact ⟨fun x => by simp, fun x => by simp⟩
  | cons c cbs ih =>
    intro st st2 h
    rw [regBags] at h
    split at h
    · cases h
    · next st1 hone =>
      rw [regOneBag] at hone
      split at hone
      · cases hone
      · obtain ⟨ha1, ha2, ha3⟩ := regAncestors_ok _ _ _ hone
        obtain ⟨hb1, hb2⟩ := ih _ _ h
        constructor
        · intro x
          rw [hb1 x, ha2 x]
          by_cases hxc : x = c <;> by_cases hxm : x ∈ cbs <;>
            simp [hxc, hxm, Finset.erase_idem, List.mem_cons]
        · intro x
          rw [hb2 x, ha3 x]
          by_cases hxc : x = c <;> by_cases hxm : x ∈ cbs <;>
            simp [hxc, hxm, Finset.union_assoc, List.mem_cons]

theorem regBags_error_of_dir {dest : List String} :
    ∀ (cbs : List Bag) (st : RegState) (cb : Bag), cb ∈ cbs →
    dest ∈ st.dirsOf cb →
    ∀ st2, regBags dest cbs st ≠ .ok st2 := by
  intro cbs
  induction cbs with
  | nil =>
    intro st cb hcb
    simp at hcb
  | cons c cbs ih =>
    intro st cb hcb hdir st2 h
    rw [regBags] at h
    split at h
    · cases h
    · next st1 hone =>
      rw [regOneBag] at hone
      split at hone
      · cases hone
      · next hnd =>
        rcases List.mem_cons.mp hcb with rfl | hmem
        · exact hnd hdir
        · obtain ⟨_, _, ha3⟩ := regAncestors_ok _ _ _ hone
          have hdir1 : dest ∈ st1.dirsOf cb := by
            rw [ha3 cb]
            split <;> rename_i hx
            · rw [hx] at hdir
              exact Finset.mem_union.mpr (Or.inl hdir)
            · exact hdir
          exact ih _ cb hmem hdir1 st2 h

theorem regBags_error_of_ancestor_file {dest : List String} :
    ∀ (cbs : List Bag) (st : RegState) (cb : Bag) (q : List String),
    cb ∈ cbs → q ∈ properPre dest → q ∈ st.filesOf cb →
    ∀ st2, regBags dest cbs st ≠ .ok st2 := by
  intro cbs
  induction cbs with
  | nil =>
    intro st cb q hcb
    simp at hcb
  | cons c cbs ih =>
    intro st cb q hcb hq hfile st2 h
    rw [regBags] at h
    split at h
    · cases h
    · next st1 hone =>
      rw [regOneBag] at hone
      split at hone
      · cases hone
      · obtain ⟨ha1, ha2, _⟩ := regAncestors_ok _ _ _ hone
        rcases List.mem_cons.mp hcb with rfl | hmem
        · exact ha1 q hq hfile
        · have hq_ne : q ≠ dest := mem_properPre_ne hq
          have hfile1 : q ∈ st1.filesOf cb := by
            rw [ha2 cb]
            split <;> rename_i hx
            · rw [hx] at hfile
              exact Finset.mem_erase.mpr ⟨hq_ne, hfile⟩
            · exact hfile
          exact ih _ cb q hmem hq hfile1 st2 h

theorem common_mem_checkBags (b : Bag) : Bag.common ∈ checkBags b := by
  cases b <;> decide

/-- Invariant preservation over one successful registration. -/
theorem regInv_step {st st2 : RegState} {bag : Bag} {dest : List String}
    (hinv : RegInv st) (h : resource_file st bag dest = .ok st2) :
    RegInv st2 := by
  rw [resource_file] at h
  split at h
  · cases h
  · split at h
    · cases h
    · split at h
      · cases h
      · split at h
        · cases h
        · next stR hreg =>
          cases h
          obtain ⟨hf, hd⟩ := regBags_ok _ _ _ hreg
          constructor
          · intro b p hp q hq cb hcb
            rw [dirsOf_updFiles, hd cb]
            rw [filesOf_updFiles] at hp
            by_cases hbb : b = bag
            · subst hbb
              rw [if_pos rfl] at hp
              rcases Finset.mem_insert.mp hp with rfl | hp2
              · rw [if_pos hcb]
                exact Finset.mem_union.mpr (Or.inr (List.mem_toFinset.mpr hq))
              · rw [hf b] at hp2
                have hporig : p ∈ st.filesOf b := by
                  by_cases hm : b ∈ checkBags b
                  · rw [if_pos hm] at hp2
                    exact Finset.mem_of_mem_erase hp2
                  · rw [if_neg hm] at hp2
                    exact hp2
                have := hinv.1 b p hporig q hq cb hcb
                by_cases hcbm : cb ∈ checkBags b
                · rw [if_pos hcbm]
                  exact Finset.mem_union.mpr (Or.inl this)
                · rw [if_neg hcbm]
                  exact this
            · rw [if_neg hbb] at hp
              rw [hf b] at hp
              have hporig : p ∈ st.filesOf b := by
                by_cases hm : b ∈ checkBags bag
                · rw [if_pos hm] at hp
                  exact Finset.mem_of_mem_erase hp
                · rw [if_neg hm] at hp
                  exact hp
              have := hinv.1 b p hporig q hq cb hcb
              by_cases hcbm : cb ∈ checkBags bag
              · rw [if_pos hcbm]
                exact Finset.mem_union.mpr (Or.inl this)
              · rw [if_neg hcbm]
                exact this
          · intro p hp
            rw [filesOf_updFiles] at hp
            rw [filesOf_updFiles, filesOf_updFiles]
            cases bag with
            | common =>
              rw [if_pos rfl] at hp
              have hup : ¬ (Bag.up = Bag.common) := by decide
              have hdown : ¬ (Bag.down = Bag.common) := by decide
              rw [if_neg hup, if_neg hdown, hf Bag.up, hf Bag.down]
              have hupm : Bag.up ∈ checkBags Bag.common := by decide
              have hdownm : Bag.down ∈ checkBags Bag.common := by decide
              rw [if_pos hupm, if_pos hdownm]
              rcases Finset.mem_insert.mp hp with rfl | hp2
              · exact ⟨Finset.not_mem_erase _ _, Finset.not_mem_erase _ _⟩
              · rw [hf Bag.common] at hp2
                have hcm : Bag.common ∈ checkBags Bag.common := by decide
                rw [if_pos hcm] at hp2
                have hporig := Finset.mem_of_mem_erase hp2
                have := hinv.2 p hporig
                exact ⟨fun hx => this.1 (Finset.mem_of_mem_erase hx),
                  fun hx => this.2 (Finset.mem_of_mem_erase hx)⟩
            | up =>
              have hcne : ¬ (Bag.common = Bag.up) := by decide
              have hdne : ¬ (Bag.down = Bag.up) := by decide
              rw [if_neg hcne] at hp
              rw [if_pos rfl, if_neg hdne, hf Bag.down]
              rw [hf Bag.common] at hp
              have hcm : Bag.common ∈ checkBags Bag.up := by decide
              have hdm : ¬ (Bag.down ∈ checkBags Bag.up) := by decide
              rw [if_pos hcm] at hp
              rw [if_neg hdm]
              rcases Finset.mem_erase.mp hp with ⟨hne, hporig⟩
              have := hinv.2 p hporig
              constructor
              · intro hx
                rcases Finset.mem_insert.mp hx with rfl | hx2
                · exact hne rfl
                · rw [hf Bag.up] at hx2
                  have hum : Bag.up ∈ checkBags Bag.up := by decide
                  rw [if_pos hum] at hx2
                  exact this.1 (Finset.mem_of_mem_erase hx2)
              · exact this.2
            | down =>
              have hcne : ¬ (Bag.common = Bag.down) := by decide
              have hune : ¬ (Bag.up = Bag.down) := by decide
              rw [if_neg hcne] at hp
              rw [if_pos rfl, if_neg hune, hf Bag.up]
              rw [hf Bag.common] at hp
              have hcm : Bag.common ∈ checkBags Bag.down := by decide
              have hum : ¬ (Bag.up ∈ checkBags Bag.down) := by decide
              rw [if_pos hcm] at hp
              rw [if_neg hum]
              rcases Finset.mem_erase.mp hp with ⟨hne, hporig⟩
              have := hinv.2 p hporig
              constructor
              · exact this.1
              · intro hx
                rcases Finset.mem_insert.mp hx with rfl | hx2
                · exact hne rfl
                · rw [hf Bag.down] at hx2
                  have hdm : Bag.down ∈ checkBags Bag.down := by decide
                  rw [if_pos hdm] at hx2
                  exact this.2 (Finset.mem_of_mem_erase hx2)

theorem regReachable_inv {st : RegState} (h : RegReachable st) : RegInv st := by
  induction h with
  | init =>
    constructor
    · intro b p hp
      cases b <;> simp [RegState.filesOf, emptyRegState] at hp
    · intro p hp
      simp [RegState.filesOf, emptyRegState] at hp
  | step _ hstep ih => exact regInv_step ih hstep

/-- Claim C9: over every sequence of successful registrations, registering a
path that is a directory ancestor of a file registered in a checked bag
fails, registering a path one of whose proper ancestors is a registered file
in a checked bag fails, and no path is ever simultaneously a `common`-bag
file and an `up`/`down`-bag file. -/
theorem c9_bag_collisions :
    (∀ st, RegReachable st → ∀ p, p ∈ st.filesOf Bag.common →
      p ∉ st.filesOf Bag.up ∧ p ∉ st.filesOf Bag.down) ∧
    (∀ st bag dest, RegReachable st →
      (∃ cb ∈ checkBags bag, ∃ p ∈ st.filesOf cb, dest ∈ properPre p) →
      resource_file st bag dest = .error ()) ∧
    (∀ st bag dest,
      (∃ cb ∈ checkBags bag, ∃ q ∈ properPre dest, q ∈ st.filesOf cb) →
      resource_file st bag dest = .error ()) := by
  have herr : ∀ (st : RegState) (bag : Bag) (dest : List String),
      (∀ st2, regBags dest (checkBags bag) st ≠ .ok st2) →
      resource_file st bag dest = .error () := by
    intro st bag dest hne
    rw [resource_file]
    split
    · rfl
    · split
      · rfl
      · split
        · rfl
        · split
          · next e _ => cases e; rfl
          · next st2 hok => exact absurd hok (hne st2)
  refine ⟨?_, ?_, ?_⟩
  · intro st hr
    exact (regReachable_inv hr).2
  · intro st bag dest hr hcol
    rcases hcol with ⟨cb, hcb, p, hp, hdest⟩
    have hinv := regReachable_inv hr
    have hdir : dest ∈ st.dirsOf Bag.common :=
      hinv.1 cb p hp dest hdest Bag.common (common_mem_checkBags cb)
    exact herr st bag dest
      (regBags_error_of_dir _ _ _ (common_mem_checkBags bag) hdir)
  · intro st bag dest hcol
    rcases hcol with ⟨cb, hcb, q, hq, hfile⟩
    exact herr st bag dest
      (regBags_error_of_ancestor_file _ _ _ _ hcb hq hfile)

/-- State after registering `a/b` into the `up` bag of a fresh resource. -/
def c9st : RegState where
  filesUp := {["a", "b"]}
  dirsUp := {["a"]}
  dirsCommon := {["a"]}

theorem c9_witness :
    resource_file emptyRegState Bag.up ["a", "b"] = .ok c9st ∧
    resource_file c9st Bag.up ["a"] = .error () :=
  ⟨by rfl,
    c9_bag_collisions.2.1 c9st Bag.up ["a"]
      (@RegReachable.step emptyRegState c9st Bag.up ["a", "b"]
        RegReachable.init (by rfl))
      ⟨Bag.up, by decide, ["a", "b"], by decide, by decide⟩⟩

/-! ## State-store backend method surfaces (`statestorage*.py`)

`StateStorage.__enter__` calls `backend.open_and_read(load_cb)`,
`StateStorageContext.write` calls `backend.write(dump_cb)`, and
`StateStorage.__exit__` calls `backend.close()`.  Each backend class defines
the following methods beyond its constructor. -/

/-- The backend methods a state-store session invokes (`statestorage.py`,
lines 15, 35, 40, 48). -/
def stateStorageSessionCalls : List String := ["open_and_read", "write", "close"]

/-- The methods defined by `FileStateStorage`
(`statestorage_backend_file.py`): the `state` property, `open(timeout)`,
`close()` and `set(key, value)`. -/
def fileStateStorageMethods : List String := ["state", "open", "close", "set"]

/-- The methods defined by `AwsStateStorage`
(`statestorage_backend_aws.py`): `open_and_read(read_cb)`, `close()` and
`write(write_cb)`. -/
def awsStateStorageMethods : List String := ["open_and_read", "close", "write"]

/-- Claim C3 fails on the code: the session protocol needs `open_and_read`,
`write` and `close`; the remote-object backend provides all three, but the
local-file backend provides neither `open_and_read` nor `write`, so entering
a session over it raises `AttributeError` before the document can load. -/
theorem c3_file_backend_lacks_session_methods :
    (∀ m ∈ stateStorageSessionCalls, m ∈ awsStateStorageMethods) ∧
    "open_and_read" ∉ fileStateStorageMethods ∧
    "write" ∉ fileStateStorageMethods ∧
    ¬ (∀ m ∈ stateStorageSessionCalls, m ∈ fileStateStorageMethods) := by
  decide

end Cnstlltn
